import Mathlib

/-!
Verification of the pdf2latex glyph-recognition core.

This file gives a shallow embedding, in Lean, of the parts of the
pdf2latex source that the checked properties speak about:

* `src/utils.rs` : `Rect`, `find_parts`, `flood_fill`, `most_frequent`;
* `src/fonts/glyph.rs` (the version wired into `lib.rs`) : pixel access,
  `Glyph::distance`, `UnknownGlyph::join`, `UnknownGlyph::from`,
  `UnknownGlyph::try_guess`;
* `src/pdf/word.rs` : `Word::should_glyph_join`, `Word::guess`,
  `Word::get_content`, `Word::get_latex`;
* `src/pdf/line.rs` : `Line::find_baseline`, `Line::guess`;
* the persisted glyph-library format (modelled from the specification,
  since the binary codec itself is provided by an external crate).

Machine integers are modelled by `Nat`/`Int`, with explicit `% 2^32`
where `u32` wrap-around is observable.  `f32` values are modelled by
`ℚ` (a single computed distance is a sum of squares of rationals), and
`f32::INFINITY` by the top element of `WithTop ℚ`.  Iteration over a
`HashMap` has no specified order in Rust; wherever the order can be
observed (`most_frequent`, the family scan of `try_guess`) the
embedding takes the iteration order as an explicit list parameter.
-/

namespace Pdf2Latex

/-- `Rect` from `src/utils.rs`: an axis-aligned rectangle in pixel
coordinates (all fields are `u32` in the source). -/
structure Rect where
  x : ℕ
  y : ℕ
  width : ℕ
  height : ℕ
  deriving DecidableEq, Repr

/-- A grayscale image (`image::GrayImage`): a width, a height and a
row-major buffer of 8-bit pixel values. -/
structure GrayImage where
  width : ℕ
  height : ℕ
  data : List ℕ
  deriving DecidableEq, Repr

/-- Pixel access `gray[(x, y)]` on a `GrayImage` (row-major). Out of
range indices (which panic in Rust and never occur on the inputs the
theorems quantify over) give the background value 255. -/
def GrayImage.pix (g : GrayImage) (x y : ℕ) : ℕ :=
  g.data.getD (y * g.width + x) 255

/-- The mean gray value of row `i`, as computed by `find_parts`:
a `u32` running sum of the row's pixels divided by the width
(integer division; division by a zero width panics in Rust, the
embedding returns 0 then). -/
def rowAverage (g : GrayImage) (i : ℕ) : ℕ :=
  (((List.range g.width).foldl (fun acc x => acc + g.pix x i) 0) % 2 ^ 32) / g.width

/-- The loop state of `find_parts`: the start row of the open part, the
first white row after it (`0` meaning "not set"), whether a part is
open, and the parts already emitted. -/
structure FPState where
  start : ℕ
  fin : ℕ
  inPart : Bool
  parts : List (ℕ × ℕ)
  deriving DecidableEq, Repr

/-- One iteration of the row loop of `find_parts` (src/utils.rs:92-115)
at row index `i`. -/
def findPartsStep (g : GrayImage) (spacing : ℕ) (s : FPState) (i : ℕ) : FPState :=
  let average := rowAverage g i
  if s.inPart ∧ average = 255 then
    let fin := if s.fin = 0 then i else s.fin
    if spacing ≤ i - fin then
      { start := s.start, fin := fin, inPart := false, parts := s.parts ++ [(s.start, fin - 1)] }
    else
      { s with fin := fin }
  else if average ≠ 255 then
    { start := if s.inPart then s.start else i, fin := 0, inPart := true, parts := s.parts }
  else
    s

/-- `find_parts` from `src/utils.rs`: scan the rows of `gray`,
emitting one `(start, end)` pair per detected part; a part still open
after the last row is emitted as `(start, gray.height())`. -/
def findParts (g : GrayImage) (spacing : ℕ) : List (ℕ × ℕ) :=
  let s := (List.range g.height).foldl (findPartsStep g spacing) ⟨0, 0, false, []⟩
  if s.inPart then s.parts ++ [(s.start, g.height)] else s.parts

/-- `u32::saturating_add_signed` (saturation at `u32::MAX` is immaterial
for the quantities involved, saturation at 0 is what the source relies
on). -/
def satAdd (n : ℕ) (d : ℤ) : ℕ :=
  ((n : ℤ) + d).toNat

/-- The nine neighbourhood offsets `(dx, dy)` produced by
`for dx in -1..2 { for dy in -1..2 { ... } }` in `flood_fill`. -/
def nbhd : List (ℤ × ℤ) :=
  [(-1, -1), (-1, 0), (-1, 1), (0, -1), (0, 0), (0, 1), (1, -1), (1, 0), (1, 1)]

/-- The inner double loop of `flood_fill` (src/utils.rs:135-148):
append every in-range neighbour of `(x, y)` that is not yet collected
and whose gray value is below 255. -/
def floodNeighbors (g : GrayImage) (x y : ℕ) (pixels : List (ℕ × ℕ)) : List (ℕ × ℕ) :=
  nbhd.foldl
    (fun ps d =>
      let nx := satAdd x d.1
      let ny := satAdd y d.2
      if nx < g.width ∧ ny < g.height ∧ ¬ ps.contains (nx, ny) ∧ g.pix nx ny < 255 then
        ps ++ [(nx, ny)]
      else ps)
    pixels

/-- The worklist loop of `flood_fill`, with explicit fuel.  The Rust
loop runs `index` from 0 to the (growing) length of `pixels`; since
appended pixels are pairwise distinct and in range, the length never
exceeds `|start| + width·height`, so that much fuel makes the embedding
exhaust the worklist exactly as the source does. -/
def floodFillAux (g : GrayImage) (threshold : ℕ) :
    ℕ → List (ℕ × ℕ) → ℕ → List (ℕ × ℕ)
  | 0, pixels, _ => pixels
  | fuel + 1, pixels, index =>
    match pixels.get? index with
    | none => pixels
    | some (x, y) =>
      let pixels' := if g.pix x y ≤ threshold then floodNeighbors g x y pixels else pixels
      floodFillAux g threshold fuel pixels' (index + 1)

/-- `flood_fill` from `src/utils.rs`: breadth-first 8-connected
expansion of the seed list `start`. -/
def floodFill (start : List (ℕ × ℕ)) (g : GrayImage) (threshold : ℕ) : List (ℕ × ℕ) :=
  floodFillAux g threshold (start.length + g.width * g.height) start 0

/-- The count stored by `most_frequent` for a value present in `array`:
the first occurrence inserts 0 and each further occurrence adds 1, so
the stored count is the number of occurrences minus one. -/
def storedCount (array : List ℕ) (v : ℕ) : ℤ :=
  (array.count v : ℤ) - 1

/-- The selection loop of `most_frequent` (src/utils.rs:164-170), made
deterministic by taking the iteration order of the hash map's keys as
the explicit list `keys` (the map's key set is exactly the set of
distinct values of `array`). -/
def mostFrequentWith (keys : List ℕ) (array : List ℕ) (default : ℕ) : ℕ × ℤ :=
  keys.foldl
    (fun mv v => if mv.2 < storedCount array v then (v, storedCount array v) else mv)
    (default, 0)

/-- `most_frequent` from `src/utils.rs`, instantiated with one
admissible key order (first-occurrence order).  Every theorem that
depends on the key order quantifies over all admissible orders via
`mostFrequentWith`. -/
def mostFrequent (array : List ℕ) (default : ℕ) : ℕ × ℤ :=
  mostFrequentWith array.dedup array default

/-- `u32` addition. -/
def u32add (a b : ℕ) : ℕ :=
  (a + b) % 2 ^ 32

/-- `u32` (wrapping) subtraction. -/
def u32sub (a b : ℕ) : ℕ :=
  (((a : ℤ) - b) % (2 ^ 32 : ℤ)).toNat

/-- The `as i32` cast of a `u32` value. -/
def u32ToI32 (n : ℕ) : ℤ :=
  if n % 2 ^ 32 < 2 ^ 31 then (n % 2 ^ 32 : ℤ) else (n % 2 ^ 32 : ℤ) - 2 ^ 32

/-- `u32::wrapping_add_signed`. -/
def wrapAdd (x : ℕ) (d : ℤ) : ℕ :=
  (((x : ℤ) + d) % (2 ^ 32 : ℤ)).toNat

/-- `Code` from `src/fonts/code.rs`: the supported font families. -/
inductive Code where
  | Cmr | Lmr | Put | Qag | Qcr | Qcs | Qpl
  deriving DecidableEq, Repr

/-- `Size` from `src/fonts/size.rs`: the LaTeX size commands. -/
inductive Size where
  | Tiny | Scriptsize | Footnotesize | Small | Normalsize
  | Large | LLarge | LLLarge | Huge | HHuge
  deriving DecidableEq, Repr

/-- `Style` from `src/fonts/style.rs`: the LaTeX style commands. -/
inductive Style where
  | Normal | Bold | Italic | Slanted | SansSerif
  | BlackBoard | Calligraphic | Fraktur | Script | EuScript
  deriving DecidableEq, Repr

/-- The `Glyph` trait view of a glyph: its bounding rect and its
row-major grayscale bitmap. -/
structure Glyph where
  rect : Rect
  image : List ℕ
  deriving DecidableEq, Repr

/-- `Glyph::get_pixel` (src/fonts/glyph.rs:167-173): the pixel at
`(x, y)` normalised to `[0, 1]`, 1 (background) outside the rect. -/
def Glyph.getPixel (g : Glyph) (x y : ℕ) : ℚ :=
  if g.rect.width ≤ x ∨ g.rect.height ≤ y then 1
  else (g.image.getD (x + y * g.rect.width) 0 : ℚ) / 255

/-- `Glyph::get_pixel_signed` (src/fonts/glyph.rs:177-183): pixel
access at signed coordinates, 1 outside the rect. -/
def Glyph.getPixelSigned (g : Glyph) (x y : ℤ) : ℚ :=
  if x < 0 ∨ y < 0 ∨ (g.rect.width : ℤ) ≤ x ∨ (g.rect.height : ℤ) ≤ y then 1
  else (g.image.getD (x.toNat + y.toNat * g.rect.width) 0 : ℚ) / 255

/-- `f32::EPSILON`. -/
def EPS : ℚ := 1 / 2 ^ 23

/-- `f32::abs`. -/
def fabs (q : ℚ) : ℚ :=
  if q < 0 then -q else q

/-- The pixel positions `(x, y)` traversed by
`for x in 0..w { for y in 0..h { ... } }`, in traversal order. -/
def grid (w h : ℕ) : List (ℕ × ℕ) :=
  (List.range w).flatMap fun x => (List.range h).map fun y => (x, y)

/-- The nine keys inserted into the `dist` map of `Glyph::distance`
(src/fonts/glyph.rs:188-193): `(dx, dy + offset)` for
`dx, dy ∈ {-1, 0, 1}`. -/
def shiftKeys (offset : ℤ) : List (ℤ × ℤ) :=
  [(-1, -1 + offset), (-1, offset), (-1, 1 + offset),
   (0, -1 + offset), (0, offset), (0, 1 + offset),
   (1, -1 + offset), (1, offset), (1, 1 + offset)]

/-- The accumulator of `Glyph::distance` for one map entry `(dx, dy)`:
the two pixel loops of src/fonts/glyph.rs:196-224, each guarded by
`value < limit` before every addition.  Every entry of the map is
accumulated independently, so the (unspecified) iteration order of the
map inside the pixel loops is unobservable. -/
def accShift (self other : Glyph) (limit : WithTop ℚ) (dx dy : ℤ) : ℚ :=
  (grid other.rect.width other.rect.height).foldl
    (fun (v : ℚ) p =>
      if (v : WithTop ℚ) < limit then
        if fabs (self.getPixelSigned ((p.1 : ℤ) - dx) ((p.2 : ℤ) - dy) - 1) < EPS then
          v + (self.getPixelSigned ((p.1 : ℤ) - dx) ((p.2 : ℤ) - dy)
            - other.getPixel (wrapAdd p.1 dx) (wrapAdd p.2 dy)) ^ 2
        else v
      else v)
    ((grid self.rect.width self.rect.height).foldl
      (fun (v : ℚ) p =>
        if (v : WithTop ℚ) < limit then
          if EPS < fabs (self.getPixel p.1 p.2 - 1) then
            v + (self.getPixel p.1 p.2
              - other.getPixelSigned ((p.1 : ℤ) + dx) ((p.2 : ℤ) + dy)) ^ 2
          else v
        else v)
      0)

/-- `Glyph::distance` (src/fonts/glyph.rs:186-227): the minimum over
the nine shift accumulators. -/
def Glyph.distance (self other : Glyph) (offset : ℤ) (limit : WithTop ℚ) : ℚ :=
  match (shiftKeys offset).map (fun d => accShift self other limit d.1 d.2) with
  | [] => 0
  | v :: vs => vs.foldl min v

/-- `KnownGlyph` from `src/fonts/glyph.rs`: a reference glyph with its
symbolic data, bitmap and baseline offset. -/
structure KnownGlyph where
  base : String
  code : Code
  size : Size
  styles : List Style
  modifiers : List String
  math : Bool
  rect : Rect
  image : List ℕ
  offset : ℤ
  deriving DecidableEq, Repr

/-- The `Glyph` trait view of a `KnownGlyph`. -/
def KnownGlyph.toGlyph (k : KnownGlyph) : Glyph :=
  ⟨k.rect, k.image⟩

/-- `GlyphData`: the identity tuple returned by
`KnownGlyph::get_data`. -/
abbrev GlyphData := String × Code × Size × List Style × List String × Bool

/-- `KnownGlyph::get_data` (src/fonts/glyph.rs:439-448). -/
def KnownGlyph.getData (k : KnownGlyph) : GlyphData :=
  (k.base, k.code, k.size, k.styles, k.modifiers, k.math)

/-- `UnknownGlyph` from `src/fonts/glyph.rs`: a page fragment with its
running best distance and guess.  `dist` is an `Option<f32>` whose
stored value can be `f32::INFINITY`, hence `Option (WithTop ℚ)`. -/
structure UnknownGlyph where
  rect : Rect
  image : List ℕ
  dist : Option (WithTop ℚ)
  guess : Option KnownGlyph
  deriving DecidableEq, Repr

instance : Inhabited UnknownGlyph :=
  ⟨⟨⟨0, 0, 0, 0⟩, [], none, none⟩⟩

/-- The `Glyph` trait view of an `UnknownGlyph`. -/
def UnknownGlyph.toGlyph (u : UnknownGlyph) : Glyph :=
  ⟨u.rect, u.image⟩

/-- `DIST_THRESHOLD` from `src/fonts/glyph.rs`. -/
def DIST_THRESHOLD : ℚ := 4

/-- `DIST_UNALIGNED_THRESHOLD` from `src/fonts/glyph.rs`. -/
def DIST_UNALIGNED_THRESHOLD : ℚ := 32

/-- `CHAR_THRESHOLD` from `src/fonts/glyph.rs`. -/
def CHAR_THRESHOLD : ℕ := 75

/-- One family of the `FontBase`: the `(width, height)`-keyed hash map
of glyph buckets, as an association list. -/
abbrev Family := List ((ℕ × ℕ) × List KnownGlyph)

/-- `FontBase.glyphs.values()`: the families, in the (unspecified, here
explicit) iteration order of the outer hash map. -/
abbrev FontBase := List Family

/-- `family.get(&(width, height))` on the association-list model. -/
def Family.get (fam : Family) (k : ℕ × ℕ) : Option (List KnownGlyph) :=
  (fam.find? fun e => e.1 == k).map (·.2)

/-- The loop state of `UnknownGlyph::try_guess`
(src/fonts/glyph.rs:700-742): the best score so far, the best candidate
so far, and whether `break 'outer` has run. -/
structure TGState where
  closest : WithTop ℚ
  curGuess : Option KnownGlyph
  broke : Bool
  deriving DecidableEq, Repr

/-- The candidate's alignment offset
`glyph.offset - ((self.rect.y + self.rect.height) as i32 - baseline as i32)`. -/
def candOffset (u : UnknownGlyph) (baseline : ℕ) (glyph : KnownGlyph) : ℤ :=
  glyph.offset - (u32ToI32 (u.rect.y + u.rect.height) - u32ToI32 baseline)

/-- The candidate's score: the distance at the (possibly suppressed)
alignment offset, plus `|offset|` as a penalty in the unaligned case. -/
def candScore (u : UnknownGlyph) (baseline : ℕ) (aligned : Bool)
    (closest : WithTop ℚ) (glyph : KnownGlyph) : ℚ :=
  Glyph.distance u.toGlyph glyph.toGlyph
    (if aligned then candOffset u baseline glyph else 0) closest
    + (if aligned then 0 else ((candOffset u baseline glyph).natAbs : ℚ))

/-- The body of the innermost candidate loop of `try_guess` for one
`KnownGlyph` of a matching bucket. -/
def tryGuessGlyph (u : UnknownGlyph) (baseline : ℕ) (aligned : Bool)
    (s : TGState) (glyph : KnownGlyph) : TGState :=
  if s.broke then s
  else if (candScore u baseline aligned s.closest glyph : WithTop ℚ) < s.closest then
    ⟨candScore u baseline aligned s.closest glyph, some glyph,
      decide (candScore u baseline aligned s.closest glyph < DIST_THRESHOLD)⟩
  else
    ⟨s.closest, s.curGuess,
      decide (candScore u baseline aligned s.closest glyph < DIST_THRESHOLD)⟩

/-- The dimension perturbations `[0, -1, 1, -2, 2]` of `try_guess`. -/
def dwdhList : List ℤ := [0, -1, 1, -2, 2]

/-- The `(dw, dh)` pairs scanned by `try_guess`, in scan order. -/
def dimPairs : List (ℤ × ℤ) :=
  dwdhList.flatMap fun dw => dwdhList.map fun dh => (dw, dh)

/-- The bucket lookup and candidate loop of `try_guess` for one
`(dw, dh)` perturbation. -/
def tryGuessDims (u : UnknownGlyph) (baseline : ℕ) (aligned : Bool) (fam : Family)
    (s : TGState) (d : ℤ × ℤ) : TGState :=
  if s.broke then s
  else
    match Family.get fam (satAdd u.rect.width d.1, satAdd u.rect.height d.2) with
    | some glyphs => glyphs.foldl (tryGuessGlyph u baseline aligned) s
    | none => s

/-- The per-family scan of `try_guess`. -/
def tryGuessFamily (u : UnknownGlyph) (baseline : ℕ) (aligned : Bool)
    (s : TGState) (fam : Family) : TGState :=
  if s.broke then s else dimPairs.foldl (tryGuessDims u baseline aligned fam) s

/-- `UnknownGlyph::try_guess` from `src/fonts/glyph.rs` (the version
compiled into the crate by `lib.rs`): scan the font base and then
unconditionally store the final score in `dist` and the final candidate
(possibly `None`) in `guess`. -/
def UnknownGlyph.tryGuess (fb : FontBase) (baseline : ℕ) (aligned : Bool)
    (u : UnknownGlyph) : UnknownGlyph :=
  { u with
    dist := some (fb.foldl (tryGuessFamily u baseline aligned)
      ⟨u.dist.getD ⊤, none, false⟩).closest,
    guess := (fb.foldl (tryGuessFamily u baseline aligned)
      ⟨u.dist.getD ⊤, none, false⟩).curGuess }

/-- The double `put_pixel` loop of `UnknownGlyph::join`: blit glyph `g`
into the row-major buffer `buf` (of row width `bufW`) at offset
`(ox, oy)`. -/
def paint (buf : List ℕ) (bufW : ℕ) (g : Glyph) (ox oy : ℕ) : List ℕ :=
  (grid g.rect.width g.rect.height).foldl
    (fun b p => b.set ((p.2 + oy) * bufW + (p.1 + ox)) (g.image.getD (p.1 + p.2 * g.rect.width) 0))
    buf

/-- `UnknownGlyph::join` (src/fonts/glyph.rs:660-697): the bounding
rect of both inputs, a white buffer with `self` then `other` blitted at
their original absolute positions, and `dist`/`guess` reset. -/
def UnknownGlyph.join (self other : UnknownGlyph) : UnknownGlyph :=
  let x := min self.rect.x other.rect.x
  let y := min self.rect.y other.rect.y
  let width := max (u32sub (u32add self.rect.x self.rect.width) x)
    (u32sub (u32add other.rect.x other.rect.width) x)
  let height := max (u32sub (u32add self.rect.y self.rect.height) y)
    (u32sub (u32add other.rect.y other.rect.height) y)
  let buf₀ := List.replicate (width * height) 255
  let buf₁ := paint buf₀ width self.toGlyph (self.rect.x - x) (self.rect.y - y)
  let buf₂ := paint buf₁ width other.toGlyph (other.rect.x - x) (other.rect.y - y)
  { rect := ⟨x, y, width, height⟩, image := buf₂, dist := none, guess := none }

/-- The pixel collection and the four `unwrap`ped min/max reductions of
`UnknownGlyph::from` (src/fonts/glyph.rs:633-651), up to the resulting
rect; `gray` is the crop of the page image to `bounds`.  `none` models
the `unwrap` panic on an empty reduction. -/
def UnknownGlyph.fromSeedRect (start : ℕ × ℕ) (bounds : Rect) (gray : GrayImage) : Option Rect :=
  let pixels := floodFill [start] gray CHAR_THRESHOLD
  match (pixels.map Prod.fst).min?, (pixels.map Prod.snd).min? with
  | some x, some y =>
    match (pixels.map fun p => p.1 - x + 1).max?, (pixels.map fun p => p.2 - y + 1).max? with
    | some w, some h => some ⟨u32add x bounds.x, u32add y bounds.y, w, h⟩
    | _, _ => none
  | _, _ => none

/-- `WORD_SPACING` from `src/pdf/word.rs`. -/
def WORD_SPACING : ℕ := 15

/-- `dist.unwrap_or(f32::INFINITY)`. -/
def unwrapDist (d : Option (WithTop ℚ)) : WithTop ℚ :=
  d.getD ⊤

/-- `Word::should_glyph_join` (src/pdf/word.rs:62-66). -/
def shouldGlyphJoin (glyphs : List UnknownGlyph) (index : ℕ) : Bool :=
  let prev := glyphs.getD (index - 1) default
  let cur := glyphs.getD index default
  decide (cur.rect.x < u32sub (u32add prev.rect.x prev.rect.width) (WORD_SPACING / 4)) ||
  decide ((DIST_THRESHOLD : WithTop ℚ) < unwrapDist cur.dist)

/-- The `for collapse_length in 1..=2` body of `Word::guess`
(src/pdf/word.rs:86-108): try joining the glyph at `i` with one
predecessor, then with two, accumulating the max of the consumed
distances; return the accepted collapse length and merged glyph, or
`none` when neither join improves. -/
def mergeAttempt (fb : FontBase) (baseline : ℕ) (glyphs : List UnknownGlyph) (i : ℕ) :
    Option (ℕ × UnknownGlyph) :=
  if i < 1 then none
  else
    let d₁ := max (unwrapDist (glyphs.getD i default).dist)
      (unwrapDist (glyphs.getD (i - 1) default).dist)
    let j₁ := UnknownGlyph.tryGuess fb baseline true
      (UnknownGlyph.join (glyphs.getD i default) (glyphs.getD (i - 1) default))
    if unwrapDist j₁.dist < d₁ then some (1, j₁)
    else if i < 2 then none
    else
      let d₂ := max d₁ (unwrapDist (glyphs.getD (i - 2) default).dist)
      let j₂ := UnknownGlyph.tryGuess fb baseline true
        (UnknownGlyph.join j₁ (glyphs.getD (i - 2) default))
      if unwrapDist j₂.dist < d₂ then some (2, j₂) else none

/-- The `drain`/`insert` replacement of an accepted merge:
`glyphs[i-c..=i]` is replaced by the single merged glyph. -/
def replaceMerged (glyphs : List UnknownGlyph) (i c : ℕ) (joined : UnknownGlyph) :
    List UnknownGlyph :=
  glyphs.take (i - c) ++ [joined] ++ glyphs.drop (i + 1)

/-- The right-to-left merge loop of `Word::guess`
(src/pdf/word.rs:76-109); `idx` is the value of `base_index` at the
`while` head. -/
def mergeLoop (fb : FontBase) (baseline : ℕ) : List UnknownGlyph → ℕ → List UnknownGlyph
  | glyphs, idx =>
    if idx ≤ 1 then glyphs
    else if ¬ shouldGlyphJoin glyphs (idx - 1) then mergeLoop fb baseline glyphs (idx - 1)
    else
      match mergeAttempt fb baseline glyphs (idx - 1) with
      | none => mergeLoop fb baseline glyphs (idx - 1)
      | some (c, j) => mergeLoop fb baseline (replaceMerged glyphs (idx - 1) c j) (idx - 1 - c)
  termination_by _gs idx => idx
  decreasing_by all_goals omega

/-- `Word::guess` from `src/pdf/word.rs` on the glyph list: one
`try_guess` per glyph, then the merge loop (the unaligned third pass is
commented out in this version of the source). -/
def wordGuess (fb : FontBase) (baseline : ℕ) (glyphs : List UnknownGlyph) :
    List UnknownGlyph :=
  let gs := glyphs.map (UnknownGlyph.tryGuess fb baseline true)
  mergeLoop fb baseline gs gs.length

/-- The `Display` string of a `Size` (src/fonts/size.rs). -/
def sizeStr : Size → String
  | .Tiny => "tiny"
  | .Scriptsize => "scriptsize"
  | .Footnotesize => "footnotesize"
  | .Small => "small"
  | .Normalsize => "normalsize"
  | .Large => "large"
  | .LLarge => "Large"
  | .LLLarge => "LARGE"
  | .Huge => "huge"
  | .HHuge => "Huge"

/-- The `Display` string of a `Style` (src/fonts/style.rs). -/
def styleStr : Style → String
  | .Normal => "textnormal"
  | .Bold => "textbf"
  | .Italic => "textit"
  | .Slanted => "textsl"
  | .SansSerif => "textsf"
  | .BlackBoard => "mathbb"
  | .Calligraphic => "mathcal"
  | .Fraktur => "mathfrak"
  | .Script => "mathscr"
  | .EuScript => "EuScript"

/-- The `default` tuple of `KnownGlyph::latex`. -/
def defaultData : GlyphData :=
  ("", Code.Cmr, Size.Normalsize, [Style.Normal], [], false)

/-- `KnownGlyph::latex` (src/fonts/glyph.rs:502-570): emit the LaTeX of
one glyph, opening and closing size/math/style regions only at
transitions against the previous and next glyph's data. -/
def latexOf (data : GlyphData) (prev next : Option GlyphData) (isEnd : Bool) : String :=
  let (base, _, size, styles, modifiers, math) := data
  let (_, _, pSize, pStyles, _, pMath) := prev.getD defaultData
  let (_, _, nSize, nStyles, _, nMath) := next.getD defaultData
  let r₀ :=
    if size ≠ pSize ∨ math ≠ pMath ∨ styles ≠ pStyles then
      (if size ≠ Size.Normalsize ∧ ¬ math then "\x7b\\" ++ sizeStr size ++ " " else "")
      ++ (if math ∧ ¬ pMath then "$" else "")
      ++ styles.foldl
        (fun r st => if st ≠ Style.Normal then r ++ "\\" ++ styleStr st ++ "\x7b" else r) ""
    else ""
  let r₁ := r₀ ++ modifiers.foldl (fun acc modif => "\\" ++ modif ++ "\x7b" ++ acc ++ "\x7d") base
  let r₂ := r₁ ++ (if base.startsWith "\\" ∧ nMath ∧ ¬ isEnd then " " else "")
  r₂ ++
    (if size ≠ nSize ∨ math ≠ nMath ∨ styles ≠ nStyles then
      styles.foldl (fun r st => if st ≠ Style.Normal then r ++ "\x7d" else r) ""
      ++ (if math ∧ ¬ nMath then "$" else "")
      ++ (if size ≠ Size.Normalsize ∧ ¬ math then "\x7d" else "")
    else "")

/-- `KnownGlyph::get_latex` (src/fonts/glyph.rs:452-464). -/
def KnownGlyph.getLatex (k : KnownGlyph) (prev next : Option KnownGlyph) (isEnd : Bool) : String :=
  latexOf k.getData (prev.map KnownGlyph.getData) (next.map KnownGlyph.getData) isEnd

/-- `Word` from `src/pdf/word.rs`.  The `special_formula` field holds a
`SpecialFormulas` value; only the LaTeX string its `get_latex` produces
is observable here, so the field is modelled by that string. -/
structure Word where
  rect : Rect
  glyphs : List UnknownGlyph
  specialFormula : Option String
  deriving DecidableEq, Repr

/-- `Word::guess` (src/pdf/word.rs:69-117). -/
def Word.guess (fb : FontBase) (baseline : ℕ) (w : Word) : Word :=
  { w with glyphs := wordGuess fb baseline w.glyphs }

/-- The placeholder emitted by `Word::get_content` for an unmatched
glyph: U+2584 LOWER HALF BLOCK. -/
def placeholder : String := "▄"

/-- `Word::get_content` (src/pdf/word.rs:143-151): concatenate each
glyph's guessed base, with the placeholder for `guess = None`. -/
def Word.getContent (w : Word) : String :=
  String.join (w.glyphs.map fun g =>
    match g.guess with
    | some k => k.base
    | none => placeholder)

/-- `Word::get_latex` (src/pdf/word.rs:155-172): the special-formula
LaTeX when present, else each glyph's LaTeX with `"?"` for
`guess = None`. -/
def Word.getLatex (w : Word) (prev next : Option KnownGlyph) : String :=
  match w.specialFormula with
  | some s => "$$" ++ s ++ "$$"
  | none =>
    String.join (w.glyphs.enum.map fun p =>
      let prevG := if p.1 = 0 then prev
        else match w.glyphs.get? (p.1 - 1) with
          | some g' => g'.guess
          | none => prev
      let nextG := match w.glyphs.get? (p.1 + 1) with
        | some g' => g'.guess
        | none => next
      match p.2.guess with
      | some k => k.getLatex prevG nextG (p.1 = w.glyphs.length - 1)
      | none => "?")

/-- The glyph bottoms `glyph.rect.y + glyph.rect.height` collected over
every glyph of every word by `Line::find_baseline`
(src/pdf/line.rs:56-64). -/
def lineBottoms (words : List Word) : List ℕ :=
  words.flatMap fun w => w.glyphs.map fun g => u32add g.rect.y g.rect.height

/-- `Line::find_baseline` (src/pdf/line.rs:56-67): the value returned
by `most_frequent(&bottoms, 0)`. -/
def findBaseline (words : List Word) : ℕ :=
  (mostFrequent (lineBottoms words) 0).1

/-- `Line` from `src/pdf/line.rs`. -/
structure Line where
  rect : Rect
  baseline : ℕ
  canHaveNewLine : Bool
  words : List Word
  deriving DecidableEq, Repr

/-- `Line::guess` (src/pdf/line.rs:70-74). -/
def Line.guess (fb : FontBase) (l : Line) : Line :=
  { l with words := l.words.map (Word.guess fb l.baseline) }

/-- `Line::get_content` (src/pdf/line.rs:89-95). -/
def Line.getContent (l : Line) : String :=
  String.intercalate " " (l.words.map Word.getContent)

/-! ### The persisted glyph-library format

`FontBase::get_family` persists a `Vec<KnownGlyph>` with
`bitcode::encode` and reads it back with `bitcode::decode`
(src/fonts/fonts.rs:66-74, 153, 173).  The codec itself lives in the
external `bitcode` crate, not in this repository; the definitions below
are modelled from the specification of the format ("binary-encoded
sequence of glyph records ... must round-trip exactly") as a
length-prefixed record sequence over the fields of `KnownGlyph`. -/

/-- Modelled from the spec: a string persisted as its length followed
by its character codes (the `bitcode` string encoding is not in the
repository). -/
def encStr (s : String) : List ℕ :=
  s.toList.length :: s.toList.map Char.toNat

/-- Take `n` raw tokens off the input, failing when fewer remain. -/
def decRaw (n : ℕ) (l : List ℕ) : Option (List ℕ × List ℕ) :=
  if n ≤ l.length then some (l.take n, l.drop n) else none

/-- Decoder matching `encStr`. -/
def decStr : List ℕ → Option (String × List ℕ)
  | [] => none
  | n :: rest =>
    (decRaw n rest).map fun p => (String.mk (p.1.map Char.ofNat), p.2)

/-- Modelled from the spec: the persisted tag of a `Code`. -/
def encCode : Code → ℕ
  | .Cmr => 0 | .Lmr => 1 | .Put => 2 | .Qag => 3 | .Qcr => 4 | .Qcs => 5 | .Qpl => 6

/-- Decoder matching `encCode`. -/
def decCode : ℕ → Option Code
  | 0 => some .Cmr | 1 => some .Lmr | 2 => some .Put | 3 => some .Qag
  | 4 => some .Qcr | 5 => some .Qcs | 6 => some .Qpl | _ => none

/-- Modelled from the spec: the persisted tag of a `Size`. -/
def encSize : Size → ℕ
  | .Tiny => 0 | .Scriptsize => 1 | .Footnotesize => 2 | .Small => 3 | .Normalsize => 4
  | .Large => 5 | .LLarge => 6 | .LLLarge => 7 | .Huge => 8 | .HHuge => 9

/-- Decoder matching `encSize`. -/
def decSize : ℕ → Option Size
  | 0 => some .Tiny | 1 => some .Scriptsize | 2 => some .Footnotesize | 3 => some .Small
  | 4 => some .Normalsize | 5 => some .Large | 6 => some .LLarge | 7 => some .LLLarge
  | 8 => some .Huge | 9 => some .HHuge | _ => none

/-- Modelled from the spec: the persisted tag of a `Style`. -/
def encStyle : Style → ℕ
  | .Normal => 0 | .Bold => 1 | .Italic => 2 | .Slanted => 3 | .SansSerif => 4
  | .BlackBoard => 5 | .Calligraphic => 6 | .Fraktur => 7 | .Script => 8 | .EuScript => 9

/-- Decoder matching `encStyle`. -/
def decStyle : ℕ → Option Style
  | 0 => some .Normal | 1 => some .Bold | 2 => some .Italic | 3 => some .Slanted
  | 4 => some .SansSerif | 5 => some .BlackBoard | 6 => some .Calligraphic
  | 7 => some .Fraktur | 8 => some .Script | 9 => some .EuScript | _ => none

/-- Modelled from the spec: the persisted tag of a `bool`. -/
def encBool : Bool → ℕ
  | false => 0
  | true => 1

/-- Decoder matching `encBool`. -/
def decBool : ℕ → Option Bool
  | 0 => some false
  | 1 => some true
  | _ => none

/-- Modelled from the spec: an `i32` persisted as a sign tag and a
magnitude. -/
def encInt (z : ℤ) : List ℕ :=
  [if z < 0 then 1 else 0, z.natAbs]

/-- Decoder matching `encInt`. -/
def decInt : List ℕ → Option (ℤ × List ℕ)
  | 0 :: m :: rest => some ((m : ℤ), rest)
  | 1 :: m :: rest => some (-(m : ℤ), rest)
  | _ => none

/-- Decode `n` single-token values with `dec1`. -/
def decMany1 {α : Type} (dec1 : ℕ → Option α) : ℕ → List ℕ → Option (List α × List ℕ)
  | 0, l => some ([], l)
  | _ + 1, [] => none
  | n + 1, t :: rest =>
    (dec1 t).bind fun a => (decMany1 dec1 n rest).map fun p => (a :: p.1, p.2)

/-- Decode `n` strings with `decStr`. -/
def decManyStr : ℕ → List ℕ → Option (List String × List ℕ)
  | 0, l => some ([], l)
  | n + 1, l =>
    (decStr l).bind fun p => (decManyStr n p.2).map fun q => (p.1 :: q.1, q.2)

/-- Modelled from the spec: one persisted `KnownGlyph` record — its
symbolic data (`get_data` tuple), rect, bitmap bytes and baseline
offset, each length-prefixed where variable-sized. -/
def encGlyph (k : KnownGlyph) : List ℕ :=
  encStr k.base
    ++ encCode k.code :: encSize k.size
    :: (k.styles.length :: k.styles.map encStyle)
    ++ (k.modifiers.length :: k.modifiers.flatMap encStr)
    ++ encBool k.math :: k.rect.x :: k.rect.y :: k.rect.width :: k.rect.height
    :: (k.image.length :: k.image)
    ++ encInt k.offset

/-- Decoder matching `encGlyph`. -/
def decGlyph (l : List ℕ) : Option (KnownGlyph × List ℕ) := do
  let (base, l₁) ← decStr l
  match l₁ with
  | c :: s :: nst :: l₂ => do
    let code ← decCode c
    let size ← decSize s
    let (styles, l₃) ← decMany1 decStyle nst l₂
    match l₃ with
    | nmod :: l₄ => do
      let (modifiers, l₅) ← decManyStr nmod l₄
      match l₅ with
      | b :: x :: y :: w :: h :: nimg :: l₆ => do
        let math ← decBool b
        let (image, l₇) ← decRaw nimg l₆
        let (offset, l₈) ← decInt l₇
        pure (⟨base, code, size, styles, modifiers, math, ⟨x, y, w, h⟩, image, offset⟩, l₈)
      | _ => none
    | _ => none
  | _ => none

/-- Decode `n` glyph records with `decGlyph`. -/
def decGlyphsAux : ℕ → List ℕ → Option (List KnownGlyph × List ℕ)
  | 0, l => some ([], l)
  | n + 1, l =>
    (decGlyph l).bind fun p => (decGlyphsAux n p.2).map fun q => (p.1 :: q.1, q.2)

/-- Modelled from the spec: the persisted form of one glyph-library
file — the record count followed by the records. -/
def encodeGlyphs (gs : List KnownGlyph) : List ℕ :=
  gs.length :: gs.flatMap encGlyph

/-- Decoder matching `encodeGlyphs`; like `bitcode::decode`, it fails
unless the whole input is consumed. -/
def decodeGlyphs : List ℕ → Option (List KnownGlyph)
  | [] => none
  | n :: rest =>
    (decGlyphsAux n rest).bind fun p => if p.2.isEmpty then some p.1 else none

/-! ### Generic fold lemmas -/

theorem foldl_preserve {α β : Type} {P : β → Prop} (f : β → α → β) (l : List α) (b : β)
    (hb : P b) (hf : ∀ b a, P b → P (f b a)) : P (l.foldl f b) := by
  induction l generalizing b with
  | nil => exact hb
  | cons a t ih => exact ih _ (hf _ _ hb)

theorem foldl_preserve_mem {α β : Type} {P : β → Prop} (f : β → α → β) (l : List α) (b : β)
    (hb : P b) (hf : ∀ b a, a ∈ l → P b → P (f b a)) : P (l.foldl f b) := by
  induction l generalizing b with
  | nil => exact hb
  | cons a t ih =>
    exact ih _ (hf _ _ (List.mem_cons_self a t) hb)
      fun b' a' ha' => hf b' a' (List.mem_cons_of_mem a ha')

theorem foldl_min_le_init (l : List ℚ) (v : ℚ) : l.foldl min v ≤ v := by
  induction l generalizing v with
  | nil => exact le_refl v
  | cons a t ih => exact le_trans (ih (min v a)) (min_le_left v a)

theorem foldl_min_le_mem (l : List ℚ) (v x : ℚ) (hx : x ∈ l) : l.foldl min v ≤ x := by
  induction l generalizing v with
  | nil => cases hx
  | cons a t ih =>
    rcases List.mem_cons.mp hx with h | h
    · subst h
      exact le_trans (foldl_min_le_init t (min v x)) (min_le_right v x)
    · exact ih (min v a) h

theorem le_foldl_min (l : List ℚ) (v c : ℚ) (hv : c ≤ v) (hl : ∀ x ∈ l, c ≤ x) :
    c ≤ l.foldl min v := by
  induction l generalizing v with
  | nil => exact hv
  | cons a t ih =>
    exact ih (min v a) (le_min hv (hl a (List.mem_cons_self a t)))
      fun x hx => hl x (List.mem_cons_of_mem a hx)

theorem grid_mem {w h : ℕ} {p : ℕ × ℕ} (hp : p ∈ grid w h) : p.1 < w ∧ p.2 < h := by
  simp only [grid, List.mem_flatMap, List.mem_map, List.mem_range] at hp
  obtain ⟨x, hx, y, hy, rfl⟩ := hp
  exact ⟨hx, hy⟩

/-! ### C1 : monotonicity of `try_guess` -/

/-- The invariant of the candidate scan of `try_guess`, relative to the
score `c₀` the call started from. -/
def TGInv (c₀ : WithTop ℚ) (s : TGState) : Prop :=
  s.closest ≤ c₀ ∧
    ((s.curGuess = none ∧ s.closest = c₀) ∨ (s.curGuess.isSome ∧ s.closest < c₀))

theorem tryGuessGlyph_inv {c₀ : WithTop ℚ} {u : UnknownGlyph} {baseline : ℕ} {aligned : Bool}
    {s : TGState} (g : KnownGlyph) (hs : TGInv c₀ s) :
    TGInv c₀ (tryGuessGlyph u baseline aligned s g) := by
  unfold tryGuessGlyph
  split
  · exact hs
  · split
    · next hlt =>
      exact ⟨le_of_lt (lt_of_lt_of_le hlt hs.1), Or.inr ⟨rfl, lt_of_lt_of_le hlt hs.1⟩⟩
    · exact hs

theorem tryGuessDims_inv {c₀ : WithTop ℚ} {u : UnknownGlyph} {baseline : ℕ} {aligned : Bool}
    {fam : Family} {s : TGState} (d : ℤ × ℤ) (hs : TGInv c₀ s) :
    TGInv c₀ (tryGuessDims u baseline aligned fam s d) := by
  unfold tryGuessDims
  split
  · exact hs
  · split
    · next glyphs _ =>
      exact foldl_preserve _ glyphs s hs fun s' g hs' => tryGuessGlyph_inv g hs'
    · exact hs

theorem tryGuessFamily_inv {c₀ : WithTop ℚ} {u : UnknownGlyph} {baseline : ℕ} {aligned : Bool}
    {s : TGState} (fam : Family) (hs : TGInv c₀ s) :
    TGInv c₀ (tryGuessFamily u baseline aligned s fam) := by
  unfold tryGuessFamily
  split
  · exact hs
  · exact foldl_preserve _ dimPairs s hs fun s' d hs' => tryGuessDims_inv d hs'

/-- Claim C1 (amended): a call to the `try_guess` of `src/fonts/glyph.rs`
never increases `self.dist` (an unset `dist` reading as `+∞`): the final
`dist` is the minimum of the pre-existing score and the best examined
candidate's score.  However `self.guess` is recomputed from scratch
rather than kept: when some examined candidate strictly improved on the
pre-existing score, `guess` is that candidate and `dist` strictly
decreased; when none did, `dist` keeps its value but `guess` is set to
`None`, discarding any pre-existing guess. -/
theorem tryGuess_dist_monotone (fb : FontBase) (baseline : ℕ) (aligned : Bool)
    (u : UnknownGlyph) :
    ∃ d, (u.tryGuess fb baseline aligned).dist = some d ∧ d ≤ u.dist.getD ⊤ ∧
      (((u.tryGuess fb baseline aligned).guess = none ∧ d = u.dist.getD ⊤) ∨
       ((u.tryGuess fb baseline aligned).guess.isSome ∧ d < u.dist.getD ⊤)) := by
  have h : TGInv (u.dist.getD ⊤)
      (fb.foldl (tryGuessFamily u baseline aligned) ⟨u.dist.getD ⊤, none, false⟩) :=
    foldl_preserve _ fb _ ⟨le_refl _, Or.inl ⟨rfl, rfl⟩⟩
      fun s fam hs => tryGuessFamily_inv fam hs
  exact ⟨_, rfl, h.1, h.2⟩

/-- A concrete `KnownGlyph` used by the counterexample to C1 as
written. -/
def c1Known : KnownGlyph :=
  ⟨"A", Code.Cmr, Size.Normalsize, [], [], false, ⟨0, 0, 1, 1⟩, [0], 0⟩

/-- A concrete `UnknownGlyph` with a pre-existing best guess. -/
def c1Unknown : UnknownGlyph :=
  ⟨⟨0, 0, 1, 1⟩, [0], some ((5 : ℚ) : WithTop ℚ), some c1Known⟩

/-- Claim C1 (counterexample): on an `UnknownGlyph` whose `dist`/`guess`
record a pre-existing best match, a `try_guess` call that examines no
improving candidate (here: an empty font base, so no candidate at all)
does *not* leave `self.guess` unchanged — it resets it to `None`,
contradicting "if no examined candidate improves on a pre-existing
guess, both self.dist and self.guess are left unchanged by the call". -/
theorem tryGuess_clears_guess_counterexample :
    c1Unknown.guess = some c1Known ∧
      (c1Unknown.tryGuess [] 0 true).dist = c1Unknown.dist ∧
      (c1Unknown.tryGuess [] 0 true).guess = none :=
  ⟨rfl, rfl, rfl⟩

/-! ### C2 : identical bitmaps have distance 0 -/

/-- `f32::MAX`, exactly representable in `ℚ`. -/
def f32MAX : ℚ := (2 ^ 24 - 1) * 2 ^ 104

theorem accShift_nonneg (a b : Glyph) (limit : WithTop ℚ) (dx dy : ℤ) :
    0 ≤ accShift a b limit dx dy := by
  unfold accShift
  refine foldl_preserve _ _ _ (foldl_preserve _ _ _ (le_refl 0) ?_) ?_ <;>
  · intro v p hv
    dsimp only
    split
    · split
      · exact add_nonneg hv (sq_nonneg _)
      · exact hv
    · exact hv

theorem getPixelSigned_coe (g : Glyph) (x y : ℕ) (hx : x < g.rect.width)
    (hy : y < g.rect.height) :
    g.getPixelSigned (x : ℤ) (y : ℤ) = g.getPixel x y := by
  simp only [Glyph.getPixelSigned, Glyph.getPixel]
  rw [if_neg, if_neg]
  · simp
  · omega
  · push_neg
    refine ⟨by omega, by omega, by exact_mod_cast hx, by exact_mod_cast hy⟩

theorem wrapAdd_zero (x : ℕ) (hx : x < 2 ^ 32) : wrapAdd x 0 = x := by
  unfold wrapAdd
  rw [add_zero, Int.emod_eq_of_lt (by positivity) (by exact_mod_cast hx)]
  simp

theorem accShift_zero_of_identical (a b : Glyph) (limit : WithTop ℚ)
    (hw : a.rect.width = b.rect.width) (hh : a.rect.height = b.rect.height)
    (himg : a.image = b.image) (hw32 : a.rect.width < 2 ^ 32) (hh32 : a.rect.height < 2 ^ 32) :
    accShift a b limit 0 0 = 0 := by
  have hpix : ∀ x y, b.getPixel x y = a.getPixel x y := by
    intro x y
    simp only [Glyph.getPixel, ← hw, ← hh, ← himg]
  unfold accShift
  refine foldl_preserve_mem (P := fun v : ℚ => v = 0) _ _ _
    (foldl_preserve_mem (P := fun v : ℚ => v = 0) _ _ _ rfl ?_) ?_
  · intro v p hp hv
    obtain ⟨hx, hy⟩ := grid_mem hp
    have h1 : b.getPixelSigned ((p.1 : ℤ) + 0) ((p.2 : ℤ) + 0) = a.getPixel p.1 p.2 := by
      rw [add_zero, add_zero, getPixelSigned_coe b p.1 p.2 (hw ▸ hx) (hh ▸ hy)]
      exact hpix p.1 p.2
    rw [h1]
    simp [hv]
  · intro v p hp hv
    have hx : p.1 < b.rect.width := (grid_mem hp).1
    have hy : p.2 < b.rect.height := (grid_mem hp).2
    have hx' : p.1 < a.rect.width := hw ▸ hx
    have hy' : p.2 < a.rect.height := hh ▸ hy
    have hwa : wrapAdd p.1 0 = p.1 := wrapAdd_zero p.1 (lt_trans hx' hw32)
    have hwb : wrapAdd p.2 0 = p.2 := wrapAdd_zero p.2 (lt_trans hy' hh32)
    have h1 : a.getPixelSigned ((p.1 : ℤ) - 0) ((p.2 : ℤ) - 0) = a.getPixel p.1 p.2 := by
      rw [sub_zero, sub_zero]
      exact getPixelSigned_coe a p.1 p.2 hx' hy'
    have h2 : b.getPixel (wrapAdd p.1 0) (wrapAdd p.2 0) = a.getPixel p.1 p.2 := by
      rw [hwa, hwb]
      exact hpix p.1 p.2
    rw [h1, h2]
    simp [hv]

theorem distance_eq_zero (a b : Glyph) (limit : WithTop ℚ)
    (hw : a.rect.width = b.rect.width) (hh : a.rect.height = b.rect.height)
    (himg : a.image = b.image) (hw32 : a.rect.width < 2 ^ 32) (hh32 : a.rect.height < 2 ^ 32) :
    Glyph.distance a b 0 limit = 0 := by
  have hz : accShift a b limit 0 0 = 0 :=
    accShift_zero_of_identical _ _ _ hw hh himg hw32 hh32
  have hn : ∀ dx dy : ℤ, 0 ≤ accShift a b limit dx dy :=
    fun dx dy => accShift_nonneg _ _ _ dx dy
  simp only [Glyph.distance, shiftKeys, List.map, add_zero]
  apply le_antisymm
  · refine le_trans (foldl_min_le_mem _ _ _ ?_) (le_of_eq hz)
    simp only [List.mem_cons]
    norm_num
  · exact le_foldl_min _ _ _ (hn _ _) fun x hx => by
      simp only [List.mem_cons, List.not_mem_nil, or_false] at hx
      rcases hx with h | h | h | h | h | h | h | h <;> exact h ▸ hn _ _

/-- Claim C2: for an `UnknownGlyph` and a `KnownGlyph` whose rects have
the same width and height and whose bitmaps are byte-identical,
`distance(k, 0, f32::MAX)` is exactly 0: the shift `(0, 0)` contributes
a zero accumulator and every accumulator is a sum of squares, hence
nonnegative.  (The width/height bounds make the model's coordinate
arithmetic coincide with the source's 32-bit arithmetic; any actual
bitmap satisfies them.) -/
theorem distance_zero_of_identical (u : UnknownGlyph) (k : KnownGlyph)
    (hw : u.rect.width = k.rect.width) (hh : u.rect.height = k.rect.height)
    (himg : u.image = k.image) (hw32 : u.rect.width < 2 ^ 32) (hh32 : u.rect.height < 2 ^ 32) :
    Glyph.distance u.toGlyph k.toGlyph 0 (f32MAX : WithTop ℚ) = 0 :=
  distance_eq_zero u.toGlyph k.toGlyph (f32MAX : WithTop ℚ) hw hh himg hw32 hh32

/-- A concrete pair of identical 1×1 black glyphs witnessing C2. -/
def c2Unknown : UnknownGlyph := ⟨⟨7, 9, 1, 1⟩, [0], none, none⟩

/-- The identical reference glyph for the C2 witness. -/
def c2Known : KnownGlyph :=
  ⟨"a", Code.Cmr, Size.Normalsize, [], [], false, ⟨0, 0, 1, 1⟩, [0], 0⟩

/-- Claim C2 (witness): the theorem applied to a concrete identical
pair. -/
theorem distance_zero_of_identical_witness :
    Glyph.distance c2Unknown.toGlyph c2Known.toGlyph 0 (f32MAX : WithTop ℚ) = 0 :=
  distance_zero_of_identical c2Unknown c2Known rfl rfl rfl (by decide) (by decide)

/-! ### C4 and C10 : flood fill -/

/-- The pixels reachable by the flood fill: a seed, or an in-range
pixel of value below 255 that is 8-adjacent to a reachable pixel whose
value passes the expansion threshold. -/
inductive FloodReach (start : List (ℕ × ℕ)) (g : GrayImage) (threshold : ℕ) : ℕ × ℕ → Prop
  | seed (p : ℕ × ℕ) (hp : p ∈ start) : FloodReach start g threshold p
  | step (q p : ℕ × ℕ) (hq : FloodReach start g threshold q)
      (hqv : g.pix q.1 q.2 ≤ threshold)
      (hadj : ∃ d ∈ nbhd, p = (satAdd q.1 d.1, satAdd q.2 d.2))
      (hpx : p.1 < g.width) (hpy : p.2 < g.height)
      (hpv : g.pix p.1 p.2 < 255) : FloodReach start g threshold p

theorem floodNeighbors_spec (g : GrayImage) (x y : ℕ) (ps : List (ℕ × ℕ)) :
    ∀ q ∈ floodNeighbors g x y ps,
      q ∈ ps ∨ ((∃ d ∈ nbhd, q = (satAdd x d.1, satAdd y d.2)) ∧
        q.1 < g.width ∧ q.2 < g.height ∧ g.pix q.1 q.2 < 255) := by
  unfold floodNeighbors
  refine foldl_preserve_mem
    (P := fun l => ∀ q ∈ l, q ∈ ps ∨ ((∃ d ∈ nbhd, q = (satAdd x d.1, satAdd y d.2)) ∧
      q.1 < g.width ∧ q.2 < g.height ∧ g.pix q.1 q.2 < 255)) _ _ _
    (fun q hq => Or.inl hq) ?_
  intro l d hd hl q hq
  dsimp only at hq
  split at hq
  · next hcond =>
    rcases List.mem_append.mp hq with h | h
    · exact hl q h
    · have hq' : q = (satAdd x d.1, satAdd y d.2) := List.mem_singleton.mp h
      subst hq'
      exact Or.inr ⟨⟨d, hd, rfl⟩, hcond.1, hcond.2.1, hcond.2.2.2⟩
  · exact hl q hq

theorem floodFillAux_sound (start : List (ℕ × ℕ)) (g : GrayImage) (t : ℕ) :
    ∀ (fuel : ℕ) (pixels : List (ℕ × ℕ)) (index : ℕ),
      (∀ p ∈ pixels, FloodReach start g t p ∧ (p ∈ start ∨ g.pix p.1 p.2 < 255)) →
      ∀ p ∈ floodFillAux g t fuel pixels index,
        FloodReach start g t p ∧ (p ∈ start ∨ g.pix p.1 p.2 < 255) := by
  intro fuel
  induction fuel with
  | zero =>
    intro pixels index h p hp
    exact h p hp
  | succ n ih =>
    intro pixels index h p hp
    rw [floodFillAux] at hp
    cases hget : pixels.get? index with
    | none =>
      rw [hget] at hp
      exact h p hp
    | some xy =>
      rw [hget] at hp
      obtain ⟨x, y⟩ := xy
      have hxy : (x, y) ∈ pixels := List.get?_mem hget
      refine ih _ _ ?_ p hp
      by_cases hthr : g.pix x y ≤ t
      · simp only [hthr, if_true]
        intro q hq
        rcases floodNeighbors_spec g x y pixels q hq with hmem | ⟨hadj, hqx, hqy, hqv⟩
        · exact h q hmem
        · exact ⟨FloodReach.step (x, y) q (h _ hxy).1 hthr hadj hqx hqy hqv, Or.inr hqv⟩
      · simp only [hthr, if_false]
        exact h

/-- Claim C4 (amended): every pixel returned by `flood_fill` is either
one of the seeds — seeds are returned unconditionally, whatever their
gray value — or an in-range pixel of value strictly below 255 reachable
from a seed through a chain of 8-adjacent pixels whose values are at
most `threshold` (`FloodReach`); consequently no pixel of an ink blob
that is 8-disconnected from every seed-reachable pixel is ever
returned. -/
theorem floodFill_sound (start : List (ℕ × ℕ)) (g : GrayImage) (t : ℕ) (p : ℕ × ℕ)
    (hp : p ∈ floodFill start g t) :
    FloodReach start g t p ∧ (p ∈ start ∨ g.pix p.1 p.2 < 255) :=
  floodFillAux_sound start g t _ start 0
    (fun q hq => ⟨FloodReach.seed q hq, Or.inl hq⟩) p hp

/-- Claim C4 (witness): the soundness theorem applied to the
anti-aliased edge pixel `(1,0)` of a 3×1 strip, returned by a flood
fill seeded at `(0,0)`. -/
theorem floodFill_sound_witness :
    FloodReach [(0, 0)] ⟨3, 1, [10, 20, 255]⟩ 75 (1, 0) ∧
      ((1, 0) ∈ [((0 : ℕ), (0 : ℕ))] ∨ GrayImage.pix ⟨3, 1, [10, 20, 255]⟩ 1 0 < 255) :=
  floodFill_sound [(0, 0)] ⟨3, 1, [10, 20, 255]⟩ 75 (1, 0) (by decide)

/-- Claim C4 (counterexample): on a 1×1 all-white image, `flood_fill`
seeded at the single (white) pixel returns that pixel, whose gray value
is 255 — so it is *not* true that every returned pixel has grayscale
value strictly below 255: seeds are returned unconditionally. -/
theorem floodFill_white_seed_counterexample :
    floodFill [(0, 0)] ⟨1, 1, [255]⟩ 0 = [(0, 0)] ∧
      ¬ GrayImage.pix ⟨1, 1, [255]⟩ 0 0 < 255 := by
  decide

theorem floodNeighbors_front (g : GrayImage) (x y : ℕ) (ps : List (ℕ × ℕ)) :
    ps <+: floodNeighbors g x y ps := by
  unfold floodNeighbors
  refine foldl_preserve (P := fun l => ps <+: l) _ _ _ (List.prefix_refl ps) ?_
  intro l d hl
  dsimp only
  split
  · exact hl.trans (List.prefix_append l _)
  · exact hl

theorem floodFillAux_front (g : GrayImage) (t : ℕ) :
    ∀ (fuel : ℕ) (pixels : List (ℕ × ℕ)) (index : ℕ),
      pixels <+: floodFillAux g t fuel pixels index := by
  intro fuel
  induction fuel with
  | zero =>
    intro pixels index
    exact List.prefix_refl pixels
  | succ n ih =>
    intro pixels index
    rw [floodFillAux]
    cases hget : pixels.get? index with
    | none => exact List.prefix_refl pixels
    | some xy =>
      obtain ⟨x, y⟩ := xy
      by_cases hthr : g.pix x y ≤ t
      · simp only [hthr, if_true]
        exact (floodNeighbors_front g x y pixels).trans (ih _ _)
      · simp only [hthr, if_false]
        exact ih _ _

/-- Claim C10: the seed list is a prefix of what `flood_fill` returns,
so every seed pixel — whatever its gray value — is in the result, the
result is non-empty whenever the seed list is, and in particular the
four `unwrap`ped min/max reductions of `UnknownGlyph::from` (which runs
`flood_fill` with the single seed it was given) always succeed: the
modelled `from` never reaches the panic. -/
theorem floodFill_contains_seeds (g : GrayImage) (t : ℕ) (start : List (ℕ × ℕ)) :
    (∀ s ∈ start, s ∈ floodFill start g t) ∧
      (start ≠ [] → floodFill start g t ≠ []) ∧
      (∀ (seed : ℕ × ℕ) (bounds : Rect) (gray : GrayImage),
        (UnknownGlyph.fromSeedRect seed bounds gray).isSome) := by
  refine ⟨?_, ?_, ?_⟩
  · intro s hs
    exact (floodFillAux_front g t _ start 0).subset hs
  · intro hne hempty
    exact hne (List.prefix_nil.mp (hempty ▸ floodFillAux_front g t _ start 0))
  · intro seed bounds gray
    obtain ⟨rest, hrest⟩ := floodFillAux_front gray CHAR_THRESHOLD _ [seed] 0
    unfold UnknownGlyph.fromSeedRect
    unfold floodFill
    rw [← hrest]
    simp [List.min?, List.max?]

/-- Claim C10 (witness): the theorem applied at a concrete seed list,
image and threshold. -/
theorem floodFill_contains_seeds_witness :
    (0, 0) ∈ floodFill [(0, 0)] ⟨1, 1, [255]⟩ 7 ∧ floodFill [(0, 0)] ⟨1, 1, [255]⟩ 7 ≠ [] :=
  ⟨(floodFill_contains_seeds ⟨1, 1, [255]⟩ 7 [(0, 0)]).1 (0, 0) (by decide),
    (floodFill_contains_seeds ⟨1, 1, [255]⟩ 7 [(0, 0)]).2.1 (by decide)⟩

/-! ### C5 : the baseline -/

theorem mfw_fixed (A : List ℕ) (v : ℕ) (keys : List ℕ)
    (h : ∀ w ∈ keys, storedCount A w ≤ storedCount A v) :
    keys.foldl
      (fun mv w => if mv.2 < storedCount A w then (w, storedCount A w) else mv)
      (v, storedCount A v) = (v, storedCount A v) := by
  induction keys with
  | nil => rfl
  | cons a t ih =>
    have hna : ¬ storedCount A v < storedCount A a :=
      not_lt_of_le (h a (List.mem_cons_self a t))
    simp only [List.foldl_cons, hna, if_false]
    exact ih fun w hw => h w (List.mem_cons_of_mem a hw)

theorem mfw_finds (A : List ℕ) (v : ℕ) :
    ∀ (keys : List ℕ) (m : ℕ) (mx : ℤ), v ∈ keys → mx < storedCount A v →
      (∀ w ∈ keys, w ≠ v → storedCount A w < storedCount A v) →
      keys.foldl
        (fun mv w => if mv.2 < storedCount A w then (w, storedCount A w) else mv)
        (m, mx) = (v, storedCount A v) := by
  intro keys
  induction keys with
  | nil =>
    intro m mx hv _ _
    cases hv
  | cons a t ih =>
    intro m mx hv hmx hlt
    by_cases hav : a = v
    · subst hav
      simp only [List.foldl_cons, hmx, if_true]
      exact mfw_fixed A a t fun w hw =>
        if hwv : w = a then le_of_eq (hwv ▸ rfl)
        else le_of_lt (hlt w (List.mem_cons_of_mem a hw) hwv)
    · have hvt : v ∈ t := by
        rcases List.mem_cons.mp hv with h | h
        · exact absurd h.symm hav
        · exact h
      simp only [List.foldl_cons]
      by_cases hup : mx < storedCount A a
      · simp only [hup, if_true]
        exact ih _ _ hvt (hlt a (List.mem_cons_self a t) hav)
          fun w hw => hlt w (List.mem_cons_of_mem a hw)
      · simp only [hup, if_false]
        exact ih _ _ hvt hmx fun w hw => hlt w (List.mem_cons_of_mem a hw)

/-- Claim C5 (amended): the baseline computed by `Line::find_baseline`
is the most frequent glyph bottom, *provided* the most frequent bottom
occurs at least twice and its count is uniquely maximal — under those
hypotheses the result is independent of the hash map's iteration order
(any key list with exactly the distinct bottoms gives the same answer).
When every bottom occurs exactly once, `most_frequent` returns its
default `0` instead (the stored counts are occurrences minus one, so no
value beats the initial maximum 0), see the counterexample. -/
theorem findBaseline_mode (words : List Word) (v : ℕ)
    (h2 : 2 ≤ (lineBottoms words).count v)
    (hmax : ∀ w ∈ lineBottoms words, w ≠ v →
      (lineBottoms words).count w < (lineBottoms words).count v) :
    (∀ keys : List ℕ, (∀ x, x ∈ keys ↔ x ∈ lineBottoms words) →
      (mostFrequentWith keys (lineBottoms words) 0).1 = v) ∧
    findBaseline words = v := by
  have hvA : v ∈ lineBottoms words := by
    by_contra hv
    rw [List.count_eq_zero_of_not_mem hv] at h2
    omega
  have hsc : (0 : ℤ) < storedCount (lineBottoms words) v := by
    unfold storedCount
    omega
  have hlt : ∀ w ∈ lineBottoms words, w ≠ v →
      storedCount (lineBottoms words) w < storedCount (lineBottoms words) v := by
    intro w hw hwv
    unfold storedCount
    have := hmax w hw hwv
    omega
  have key : ∀ keys : List ℕ, (∀ x, x ∈ keys ↔ x ∈ lineBottoms words) →
      mostFrequentWith keys (lineBottoms words) 0 =
        (v, storedCount (lineBottoms words) v) := by
    intro keys hk
    exact mfw_finds _ v keys 0 0 ((hk v).mpr hvA) hsc fun w hw => hlt w ((hk w).mp hw)
  refine ⟨fun keys hk => by rw [key keys hk], ?_⟩
  unfold findBaseline mostFrequent
  rw [key (lineBottoms words).dedup fun x => List.mem_dedup]

/-- A line of ten glyphs whose bottoms are 50 and one descending glyph
whose bottom is 55. -/
def c5Words : List Word :=
  [⟨⟨0, 0, 11, 55⟩,
    List.replicate 10 ⟨⟨0, 0, 1, 50⟩, [], none, none⟩ ++ [⟨⟨0, 5, 1, 50⟩, [], none, none⟩],
    none⟩]

/-- Claim C5 (witness): the amended theorem applied to the 10-plus-1
line of the claim: the baseline is the shared bottom of the ten
non-descending glyphs. -/
theorem findBaseline_mode_witness : findBaseline c5Words = 50 :=
  (findBaseline_mode c5Words 50 (by decide) (by decide)).2

/-- A word holding a single glyph, whose bottom is 5. -/
def c5Single : Word := ⟨⟨0, 0, 2, 5⟩, [⟨⟨0, 0, 2, 5⟩, [], none, none⟩], none⟩

/-- Claim C5 (counterexample): for a line with a single glyph the
multiset of bottoms is `[5]`, whose statistical mode is 5, but
`find_baseline` returns the `most_frequent` default 0 — a value that is
not even a member of the multiset — because `most_frequent` stores
occurrence counts minus one, so a value occurring once never beats the
initial maximum. -/
theorem findBaseline_default_counterexample :
    lineBottoms [c5Single] = [5] ∧ findBaseline [c5Single] = 0 ∧
      findBaseline [c5Single] ∉ lineBottoms [c5Single] := by
  refine ⟨by decide, by decide, by decide⟩

/-! ### C8 : the persisted format round-trips -/

theorem decRaw_spec (l t : List ℕ) : decRaw l.length (l ++ t) = some (l, t) := by
  unfold decRaw
  rw [if_pos (by rw [List.length_append]; omega), List.take_left, List.drop_left]

theorem decStr_encStr (s : String) (t : List ℕ) : decStr (encStr s ++ t) = some (s, t) := by
  simp only [encStr, decStr, List.cons_append]
  rw [← List.length_map s.toList Char.toNat, decRaw_spec, Option.map_some']
  have hmap : (s.toList.map Char.toNat).map Char.ofNat = s.toList := by
    rw [List.map_map]
    exact (List.map_congr_left fun c _ => Char.ofNat_toNat c).trans (List.map_id s.toList)
  simp only [hmap]
  cases s
  rfl

theorem decMany1_spec {α : Type} (dec1 : ℕ → Option α) (enc1 : α → ℕ)
    (h : ∀ a, dec1 (enc1 a) = some a) (xs : List α) (t : List ℕ) :
    decMany1 dec1 xs.length (xs.map enc1 ++ t) = some (xs, t) := by
  induction xs with
  | nil => rfl
  | cons x xs ih => simp [decMany1, h x, ih]

theorem decManyStr_spec (ss : List String) (t : List ℕ) :
    decManyStr ss.length (ss.flatMap encStr ++ t) = some (ss, t) := by
  induction ss with
  | nil => rfl
  | cons s ss ih =>
    simp [decManyStr, decStr_encStr, ih, List.append_assoc]

theorem decCode_encCode (c : Code) : decCode (encCode c) = some c := by
  cases c <;> rfl

theorem decSize_encSize (s : Size) : decSize (encSize s) = some s := by
  cases s <;> rfl

theorem decStyle_encStyle (s : Style) : decStyle (encStyle s) = some s := by
  cases s <;> rfl

theorem decInt_encInt (z : ℤ) (t : List ℕ) : decInt (encInt z ++ t) = some (z, t) := by
  by_cases hz : z < 0
  · have h1 : encInt z ++ t = 1 :: z.natAbs :: t := by simp [encInt, hz]
    rw [h1]
    show some (-(z.natAbs : ℤ), t) = some (z, t)
    have habs : -(z.natAbs : ℤ) = z := by omega
    rw [habs]
  · have h1 : encInt z ++ t = 0 :: z.natAbs :: t := by simp [encInt, hz]
    rw [h1]
    show some ((z.natAbs : ℤ), t) = some (z, t)
    have habs : (z.natAbs : ℤ) = z := by omega
    rw [habs]

theorem decBool_encBool (b : Bool) : decBool (encBool b) = some b := by
  cases b <;> rfl

theorem decGlyph_encGlyph (k : KnownGlyph) (t : List ℕ) :
    decGlyph (encGlyph k ++ t) = some (k, t) := by
  obtain ⟨base, code, size, styles, modifiers, math, ⟨x, y, w, h⟩, image, offset⟩ := k
  simp only [encGlyph, List.cons_append, List.append_assoc]
  simp only [decGlyph, decStr_encStr, Option.bind_eq_bind, Option.some_bind,
    decCode_encCode, decSize_encSize, decBool_encBool,
    decMany1_spec decStyle encStyle decStyle_encStyle, decManyStr_spec, decRaw_spec,
    decInt_encInt, Option.map_some']
  rfl

theorem decGlyphsAux_spec (gs : List KnownGlyph) (t : List ℕ) :
    decGlyphsAux gs.length (gs.flatMap encGlyph ++ t) = some (gs, t) := by
  induction gs with
  | nil => rfl
  | cons g gs ih =>
    simp [decGlyphsAux, decGlyph_encGlyph, ih, List.append_assoc]

/-- Claim C8: encoding a sequence of `KnownGlyph` records to the
persisted format and decoding it back yields the sequence unchanged —
in particular equal record by record on the `get_data` tuple and on the
bitmap bytes — and re-encoding the decoded sequence is byte-identical
to the first encoding. -/
theorem encodeGlyphs_roundTrip (gs : List KnownGlyph) :
    decodeGlyphs (encodeGlyphs gs) = some gs ∧
      (decodeGlyphs (encodeGlyphs gs)).map (List.map KnownGlyph.getData) =
        some (gs.map KnownGlyph.getData) ∧
      (decodeGlyphs (encodeGlyphs gs)).map (List.map KnownGlyph.image) =
        some (gs.map KnownGlyph.image) ∧
      (decodeGlyphs (encodeGlyphs gs)).map encodeGlyphs = some (encodeGlyphs gs) := by
  have h : decodeGlyphs (encodeGlyphs gs) = some gs := by
    have := decGlyphsAux_spec gs []
    rw [List.append_nil] at this
    simp [decodeGlyphs, encodeGlyphs, this]
  exact ⟨h, by rw [h]; rfl, by rw [h]; rfl, by rw [h]; rfl⟩

/-! ### C9 : an unmatched glyph is a data outcome, rendered as a
placeholder -/

theorem tryGuess_nil_dist (baseline : ℕ) (aligned : Bool) (u : UnknownGlyph) :
    (UnknownGlyph.tryGuess [] baseline aligned u).dist = some (u.dist.getD ⊤) :=
  rfl

theorem join_dist (a b : UnknownGlyph) : (UnknownGlyph.join a b).dist = none :=
  rfl

theorem mergeAttempt_nil (baseline : ℕ) (glyphs : List UnknownGlyph) (i : ℕ) :
    mergeAttempt [] baseline glyphs i = none := by
  simp only [mergeAttempt, tryGuess_nil_dist, join_dist, unwrapDist, Option.getD_some,
    Option.getD_none, not_top_lt, if_false]
  split <;> simp

theorem mergeLoop_nil (baseline : ℕ) :
    ∀ (idx : ℕ) (glyphs : List UnknownGlyph), mergeLoop [] baseline glyphs idx = glyphs := by
  intro idx
  induction idx using Nat.strong_induction_on with
  | _ idx ih =>
    intro glyphs
    rw [mergeLoop]
    split
    · rfl
    · next h =>
      simp only [mergeAttempt_nil]
      split
      · exact ih (idx - 1) (by omega) glyphs
      · exact ih (idx - 1) (by omega) glyphs

theorem wordGuess_nil (baseline : ℕ) (glyphs : List UnknownGlyph) :
    wordGuess [] baseline glyphs = glyphs.map (UnknownGlyph.tryGuess [] baseline true) := by
  simp [wordGuess, mergeLoop_nil]

/-- Claim C9: a glyph for which no acceptable match exists is not an
error.  The guessing operations are total (they return glyphs, not a
result type): against a font base offering no acceptable candidate,
`try_guess` and `Word::guess` leave every glyph with `guess = None`,
and the renderers then emit one placeholder per glyph instead of
failing — `get_content` the character U+2584, `get_latex` the string
`"?"`. -/
theorem unmatched_glyph_placeholder (baseline : ℕ) (aligned : Bool) (u : UnknownGlyph)
    (glyphs : List UnknownGlyph) (rect : Rect) (prev next : Option KnownGlyph) :
    (UnknownGlyph.tryGuess [] baseline aligned u).guess = none ∧
      (∀ g ∈ wordGuess [] baseline glyphs, g.guess = none) ∧
      Word.getContent ⟨rect, wordGuess [] baseline glyphs, none⟩ =
        String.join (List.replicate (wordGuess [] baseline glyphs).length placeholder) ∧
      Word.getLatex ⟨rect, wordGuess [] baseline glyphs, none⟩ prev next =
        String.join (List.replicate (wordGuess [] baseline glyphs).length "?") := by
  have hnone : ∀ g ∈ wordGuess [] baseline glyphs, g.guess = none := by
    intro g hg
    rw [wordGuess_nil] at hg
    obtain ⟨x, _, rfl⟩ := List.mem_map.mp hg
    rfl
  refine ⟨rfl, hnone, ?_, ?_⟩
  · simp only [Word.getContent]
    congr 1
    rw [← List.map_const']
    refine List.map_congr_left fun g hg => ?_
    rw [hnone g hg]
  · simp only [Word.getLatex]
    congr 1
    rw [← List.enum_length (l := wordGuess [] baseline glyphs), ← List.map_const']
    refine List.map_congr_left fun p hp => ?_
    have hmem : p.2 ∈ wordGuess [] baseline glyphs := by
      rw [List.enum_eq_zip_range] at hp
      exact (List.of_mem_zip hp).2
    rw [hnone p.2 hmem]

/-! ### C6 : the merge pass of `Word::guess` -/

theorem u32add_eq (a b : ℕ) (h : a + b < 2 ^ 32) : u32add a b = a + b :=
  Nat.mod_eq_of_lt h

theorem u32sub_eq (a b : ℕ) (hb : b ≤ a) (ha : a < 2 ^ 32) : u32sub a b = a - b := by
  unfold u32sub
  rw [Int.emod_eq_of_lt (by omega) (by exact_mod_cast by omega : (a : ℤ) - b < 2 ^ 32)]
  omega

/-- The maximum of the distances of the `c + 1` glyphs consumed by a
merge at position `i` (`dist` accumulation of src/pdf/word.rs:85-95),
an unset distance reading as `f32::INFINITY`. -/
def consumedDist (glyphs : List UnknownGlyph) (i c : ℕ) : WithTop ℚ :=
  (List.range c).foldl
    (fun m k => max m (unwrapDist (glyphs.getD (i - (k + 1)) default).dist))
    (unwrapDist (glyphs.getD i default).dist)

theorem replaceMerged_length (glyphs : List UnknownGlyph) (i c : ℕ) (j : UnknownGlyph)
    (hci : c ≤ i) (hi : i < glyphs.length) :
    (replaceMerged glyphs i c j).length = glyphs.length - c := by
  simp only [replaceMerged, List.length_append, List.length_take, List.length_drop,
    List.length_cons, List.length_nil]
  omega

/-- Claim C6: properties of the right-to-left merge pass of
`Word::guess`.
(1) A merge is attempted at position `i` only if the previous glyph's
rect horizontally overlaps or comes within a quarter of `WORD_SPACING`
of the current glyph (the code requires a strict overlap of more than
`WORD_SPACING/4`, which implies this), or the current glyph's best
distance exceeds `DIST_THRESHOLD`; the well-formedness bounds on
`x + width` keep the model's arithmetic equal to the source's `u32`
arithmetic.
(2) A join consumes 1 or 2 predecessors and is accepted only when the
joined glyph's re-guessed distance is strictly below the maximum of the
consumed constituents' distances.
(3) Every accepted replacement strictly decreases the number of glyphs:
`c + 1` glyphs are replaced by one.
(4) Hence the merge loop never increases the glyph count. -/
theorem wordGuess_merge_spec (fb : FontBase) (baseline : ℕ) :
    (∀ (glyphs : List UnknownGlyph) (i : ℕ), 1 ≤ i → i < glyphs.length →
      (∀ g ∈ glyphs, 3 ≤ g.rect.x + g.rect.width ∧ g.rect.x + g.rect.width < 2 ^ 32) →
      shouldGlyphJoin glyphs i = true →
      ((glyphs.getD i default).rect.x ≤
        (glyphs.getD (i - 1) default).rect.x + (glyphs.getD (i - 1) default).rect.width
          + WORD_SPACING / 4 ∨
        (DIST_THRESHOLD : WithTop ℚ) < unwrapDist (glyphs.getD i default).dist)) ∧
    (∀ (glyphs : List UnknownGlyph) (i c : ℕ) (j : UnknownGlyph),
      mergeAttempt fb baseline glyphs i = some (c, j) →
      (c = 1 ∨ c = 2) ∧ c ≤ i ∧ unwrapDist j.dist < consumedDist glyphs i c) ∧
    (∀ (glyphs : List UnknownGlyph) (i c : ℕ) (j : UnknownGlyph),
      mergeAttempt fb baseline glyphs i = some (c, j) → i < glyphs.length →
      (replaceMerged glyphs i c j).length < glyphs.length) ∧
    (∀ (glyphs : List UnknownGlyph) (idx : ℕ), idx ≤ glyphs.length →
      (mergeLoop fb baseline glyphs idx).length ≤ glyphs.length) := by
  have hc1 : ∀ (glyphs : List UnknownGlyph) (i : ℕ), consumedDist glyphs i 1 =
      max (unwrapDist (glyphs.getD i default).dist)
        (unwrapDist (glyphs.getD (i - 1) default).dist) := by
    intro glyphs i
    simp [consumedDist, List.range_succ]
  have hc2 : ∀ (glyphs : List UnknownGlyph) (i : ℕ), consumedDist glyphs i 2 =
      max (max (unwrapDist (glyphs.getD i default).dist)
        (unwrapDist (glyphs.getD (i - 1) default).dist))
        (unwrapDist (glyphs.getD (i - 2) default).dist) := by
    intro glyphs i
    simp [consumedDist, List.range_succ]
  have hma : ∀ (glyphs : List UnknownGlyph) (i c : ℕ) (j : UnknownGlyph),
      mergeAttempt fb baseline glyphs i = some (c, j) →
      (c = 1 ∨ c = 2) ∧ c ≤ i ∧ unwrapDist j.dist < consumedDist glyphs i c := by
    intro glyphs i c j h
    simp only [mergeAttempt] at h
    split at h
    · cases h
    · next hi1 =>
      split at h
      · next hacc =>
        obtain ⟨rfl, rfl⟩ : c = 1 ∧ (UnknownGlyph.tryGuess fb baseline true
            (UnknownGlyph.join (glyphs.getD i default) (glyphs.getD (i - 1) default))) = j := by
          cases h
          exact ⟨rfl, rfl⟩
        exact ⟨Or.inl rfl, by omega, by rw [hc1]; exact hacc⟩
      · split at h
        · cases h
        · next hi2 =>
          split at h
          · next hacc =>
            obtain ⟨rfl, rfl⟩ : c = 2 ∧ (UnknownGlyph.tryGuess fb baseline true
                (UnknownGlyph.join (UnknownGlyph.tryGuess fb baseline true
                  (UnknownGlyph.join (glyphs.getD i default) (glyphs.getD (i - 1) default)))
                  (glyphs.getD (i - 2) default))) = j := by
              cases h
              exact ⟨rfl, rfl⟩
            exact ⟨Or.inr rfl, by omega, by rw [hc2]; exact hacc⟩
          · cases h
  have hlen : ∀ (glyphs : List UnknownGlyph) (i c : ℕ) (j : UnknownGlyph),
      mergeAttempt fb baseline glyphs i = some (c, j) → i < glyphs.length →
      (replaceMerged glyphs i c j).length < glyphs.length := by
    intro glyphs i c j h hi
    obtain ⟨hc, hci, _⟩ := hma glyphs i c j h
    rw [replaceMerged_length glyphs i c j hci hi]
    omega
  refine ⟨?_, hma, hlen, ?_⟩
  · intro glyphs i h1 hilen hwf hs
    have hmem : glyphs.getD (i - 1) default ∈ glyphs := by
      rw [List.getD_eq_getElem glyphs default (by omega)]
      exact List.getElem_mem _
    obtain ⟨h3, h32⟩ := hwf _ hmem
    simp only [shouldGlyphJoin, Bool.or_eq_true, decide_eq_true_eq] at hs
    have hq : WORD_SPACING / 4 = 3 := rfl
    rcases hs with hs | hs
    · left
      rw [u32add_eq _ _ h32] at hs
      rw [u32sub_eq _ _ (by omega) (by omega)] at hs
      omega
    · exact Or.inr hs
  · intro glyphs idx
    induction idx using Nat.strong_induction_on generalizing glyphs with
    | _ idx ih =>
      intro hidx
      rw [mergeLoop]
      split
      · exact le_refl _
      · next hgt =>
        split
        · exact ih (idx - 1) (by omega) glyphs (by omega)
        · split
          · exact ih (idx - 1) (by omega) glyphs (by omega)
          · next c j hsome =>
            have hi : idx - 1 < glyphs.length := by omega
            obtain ⟨hc, hci, _⟩ := hma glyphs (idx - 1) c j hsome
            have hrl := replaceMerged_length glyphs (idx - 1) c j hci hi
            have := ih (idx - 1 - c) (by omega) (replaceMerged glyphs (idx - 1) c j)
              (by omega)
            omega

/-- The two 1×1 ink fragments of the C6 witness: adjacent glyphs at
x = 2 and x = 3 on a 1-pixel-tall strip, not yet guessed. -/
def c6Glyphs : List UnknownGlyph :=
  [⟨⟨2, 0, 1, 1⟩, [0], none, none⟩, ⟨⟨3, 0, 1, 1⟩, [0], none, none⟩]

/-- A 2×1 reference glyph matching the join of the two fragments. -/
def c6Known : KnownGlyph :=
  ⟨"m", Code.Cmr, Size.Normalsize, [], [], false, ⟨0, 0, 2, 1⟩, [0, 0], 0⟩

/-- A font base holding only the 2×1 reference glyph, in the bucket of
its dimensions. -/
def c6Fb : FontBase := [[((2, 1), [c6Known])]]

/-- The merged candidate built by the merge pass at position 1. -/
def c6Joined : UnknownGlyph :=
  UnknownGlyph.tryGuess c6Fb 1 true
    (UnknownGlyph.join (c6Glyphs.getD 1 default) (c6Glyphs.getD 0 default))

theorem foldl_skip {α β : Type} (f : β → α → β) (s : β) (h : ∀ a, f s a = s) :
    ∀ l : List α, l.foldl f s = s := by
  intro l
  induction l with
  | nil => rfl
  | cons a t ih => rw [List.foldl_cons, h a, ih]

theorem c6_join :
    UnknownGlyph.join (c6Glyphs.getD 1 default) (c6Glyphs.getD 0 default) =
      ⟨⟨2, 0, 2, 1⟩, [0, 0], none, none⟩ := by
  decide

theorem c6_score :
    candScore (⟨⟨2, 0, 2, 1⟩, [0, 0], none, none⟩ : UnknownGlyph) 1 true ⊤ c6Known = 0 := by
  have hoff : candOffset ⟨⟨2, 0, 2, 1⟩, [0, 0], none, none⟩ 1 c6Known = 0 := by decide
  simp only [candScore, hoff, if_true]
  rw [distance_eq_zero (UnknownGlyph.mk ⟨2, 0, 2, 1⟩ [0, 0] none none).toGlyph
    c6Known.toGlyph ⊤ rfl rfl rfl (by decide) (by decide)]
  simp

theorem c6_step :
    tryGuessGlyph (⟨⟨2, 0, 2, 1⟩, [0, 0], none, none⟩ : UnknownGlyph) 1 true
      ⟨⊤, none, false⟩ c6Known = ⟨((0 : ℚ) : WithTop ℚ), some c6Known, true⟩ := by
  simp only [tryGuessGlyph, c6_score, WithTop.coe_lt_top, if_true, Bool.false_eq_true, if_false]
  have hd : decide ((0 : ℚ) < DIST_THRESHOLD) = true := by decide
  rw [hd]

theorem c6_tryGuess :
    UnknownGlyph.tryGuess c6Fb 1 true (⟨⟨2, 0, 2, 1⟩, [0, 0], none, none⟩ : UnknownGlyph) =
      ⟨⟨2, 0, 2, 1⟩, [0, 0], some ((0 : ℚ) : WithTop ℚ), some c6Known⟩ := by
  have hdims : dimPairs = (0, 0) :: dimPairs.tail := by decide
  have hget : Family.get [((2, 1), [c6Known])] (satAdd 2 0, satAdd 1 0) = some [c6Known] := by
    decide
  have hstep : tryGuessDims ⟨⟨2, 0, 2, 1⟩, [0, 0], none, none⟩ 1 true [((2, 1), [c6Known])]
      ⟨⊤, none, false⟩ (0, 0) = ⟨((0 : ℚ) : WithTop ℚ), some c6Known, true⟩ := by
    simp only [tryGuessDims, Bool.false_eq_true, if_false, hget, List.foldl_cons,
      List.foldl_nil, c6_step]
  have hskip : ∀ d, tryGuessDims ⟨⟨2, 0, 2, 1⟩, [0, 0], none, none⟩ 1 true
      [((2, 1), [c6Known])] ⟨((0 : ℚ) : WithTop ℚ), some c6Known, true⟩ d =
      ⟨((0 : ℚ) : WithTop ℚ), some c6Known, true⟩ := fun d => rfl
  have hfam : tryGuessFamily ⟨⟨2, 0, 2, 1⟩, [0, 0], none, none⟩ 1 true
      ⟨⊤, none, false⟩ [((2, 1), [c6Known])] = ⟨((0 : ℚ) : WithTop ℚ), some c6Known, true⟩ := by
    simp only [tryGuessFamily, Bool.false_eq_true, if_false]
    rw [hdims, List.foldl_cons, hstep, foldl_skip _ _ hskip]
  simp only [UnknownGlyph.tryGuess, c6Fb, List.foldl_cons, List.foldl_nil, Option.getD_none, hfam]

theorem c6_mergeAttempt : mergeAttempt c6Fb 1 c6Glyphs 1 = some (1, c6Joined) := by
  have hj : c6Joined = ⟨⟨2, 0, 2, 1⟩, [0, 0], some ((0 : ℚ) : WithTop ℚ), some c6Known⟩ := by
    unfold c6Joined
    rw [c6_join, c6_tryGuess]
  simp only [mergeAttempt]
  rw [if_neg (by decide : ¬ (1 : ℕ) < 1)]
  have harg : UnknownGlyph.tryGuess c6Fb 1 true
      (UnknownGlyph.join (c6Glyphs.getD 1 default) (c6Glyphs.getD (1 - 1) default)) =
      c6Joined := rfl
  rw [harg, hj]
  have hcond : unwrapDist (UnknownGlyph.mk ⟨2, 0, 2, 1⟩ [0, 0]
      (some ((0 : ℚ) : WithTop ℚ)) (some c6Known)).dist <
      max (unwrapDist (c6Glyphs.getD 1 default).dist)
        (unwrapDist (c6Glyphs.getD (1 - 1) default).dist) := by decide
  rw [if_pos hcond, ← hj]

/-! ### C7 : `UnknownGlyph::join` -/

theorem get?_set_self (l : List ℕ) (i a : ℕ) :
    (l.set i a).get? i = if i < l.length then some a else none := by
  induction l generalizing i with
  | nil => simp
  | cons hd tl ih =>
    cases i with
    | zero => simp
    | succ n =>
      simp only [List.set_cons_succ, List.get?_cons_succ, List.length_cons, ih n,
        Nat.succ_lt_succ_iff]

theorem get?_set_ne (l : List ℕ) (i j a : ℕ) (h : i ≠ j) :
    (l.set i a).get? j = l.get? j := by
  induction l generalizing i j with
  | nil => simp
  | cons hd tl ih =>
    cases i with
    | zero =>
      cases j with
      | zero => exact absurd rfl h
      | succ m => simp
    | succ n =>
      cases j with
      | zero => simp
      | succ m =>
        simp only [List.set_cons_succ, List.get?_cons_succ]
        exact ih n m fun hc => h (by omega)

theorem foldl_set_length (vals : List (ℕ × ℕ)) (buf : List ℕ) :
    (vals.foldl (fun b p => b.set p.1 p.2) buf).length = buf.length := by
  induction vals generalizing buf with
  | nil => rfl
  | cons q rest ih => simp [ih, List.length_set]

theorem foldl_set_get {α : Type} (f : α → ℕ) (v : α → ℕ) :
    ∀ (L : List α) (buf : List ℕ) (j : ℕ),
      (L.foldl (fun b p => b.set (f p) (v p)) buf).get? j =
        match (L.filter fun p => f p == j).getLast? with
        | none => buf.get? j
        | some p => if j < buf.length then some (v p) else none := by
  intro L
  induction L with
  | nil =>
    intro buf j
    rfl
  | cons q rest ih =>
    intro buf j
    rw [List.foldl_cons, ih]
    by_cases hq : f q = j
    · have hfil : ((q :: rest).filter fun p => f p == j) =
          q :: (rest.filter fun p => f p == j) := by
        simp [List.filter_cons, hq]
      rw [hfil]
      cases hrest : (rest.filter fun p => f p == j).getLast? with
      | none =>
        have hnil : (rest.filter fun p => f p == j) = [] := by
          cases hfil2 : (rest.filter fun p => f p == j) with
          | nil => rfl
          | cons r rs =>
            rw [hfil2] at hrest
            simp [List.getLast?_eq_getLast] at hrest
        rw [hnil]
        subst hq
        rw [get?_set_self]
        simp [List.length_set]
      | some p =>
        obtain ⟨r, rs, hrs⟩ : ∃ r rs, (rest.filter fun p => f p == j) = r :: rs := by
          cases hfil2 : (rest.filter fun p => f p == j) with
          | nil =>
            rw [hfil2] at hrest
            cases hrest
          | cons r rs => exact ⟨r, rs, rfl⟩
        rw [hrs] at hrest ⊢
        rw [List.getLast?_cons_cons, hrest, List.length_set]
    · have hfil : ((q :: rest).filter fun p => f p == j) =
          (rest.filter fun p => f p == j) := by
        simp [List.filter_cons, hq]
      rw [hfil, get?_set_ne _ _ _ _ hq, List.length_set]

theorem grid_append (w h : ℕ) :
    grid (w + 1) h = grid w h ++ (List.range h).map fun y => (w, y) := by
  simp [grid, List.range_succ]

theorem grid_nodup (w h : ℕ) : (grid w h).Nodup := by
  induction w with
  | zero => simp [grid]
  | succ n ih =>
    rw [grid_append]
    refine List.Nodup.append ih (List.Nodup.map ?_ (List.nodup_range ..)) ?_
    · intro y₁ y₂ he
      exact congrArg Prod.snd he
    · intro p hp hp2
      have h1 : p.1 < n := (grid_mem hp).1
      obtain ⟨y, _, rfl⟩ := List.mem_map.mp hp2
      omega

theorem grid_mem_iff {w h : ℕ} {p : ℕ × ℕ} : p ∈ grid w h ↔ p.1 < w ∧ p.2 < h := by
  constructor
  · exact grid_mem
  · intro ⟨h1, h2⟩
    simp only [grid, List.mem_flatMap, List.mem_map, List.mem_range]
    exact ⟨p.1, h1, p.2, h2, rfl⟩

theorem row_major_inj (W a b a' b' : ℕ) (hb : b < W) (hb' : b' < W)
    (h : a * W + b = a' * W + b') : a = a' ∧ b = b' := by
  have h1 : (a * W + b) % W = b := by
    rw [Nat.add_comm, Nat.add_mul_mod_self_right, Nat.mod_eq_of_lt hb]
  have h2 : (a' * W + b') % W = b' := by
    rw [Nat.add_comm, Nat.add_mul_mod_self_right, Nat.mod_eq_of_lt hb']
  have h3 : (a * W + b) / W = a := by
    rw [Nat.add_comm, Nat.add_mul_div_right _ _ (by omega : 0 < W), Nat.div_eq_of_lt hb]
    omega
  have h4 : (a' * W + b') / W = a' := by
    rw [Nat.add_comm, Nat.add_mul_div_right _ _ (by omega : 0 < W), Nat.div_eq_of_lt hb']
    omega
  constructor
  · rw [← h3, ← h4, h]
  · rw [← h1, ← h2, h]

theorem foldl_set_length2 {α : Type} (f v : α → ℕ) (L : List α) (buf : List ℕ) :
    (L.foldl (fun b p => b.set (f p) (v p)) buf).length = buf.length := by
  induction L generalizing buf with
  | nil => rfl
  | cons q rest ih => simp [ih, List.length_set]

theorem get?_replicate (n v j : ℕ) (h : j < n) : (List.replicate n v).get? j = some v := by
  induction n generalizing j with
  | zero => omega
  | succ m ih =>
    cases j with
    | zero => rfl
    | succ i => exact ih i (by omega)

theorem paint_length (buf : List ℕ) (bufW : ℕ) (g : Glyph) (ox oy : ℕ) :
    (paint buf bufW g ox oy).length = buf.length :=
  foldl_set_length2 _ _ _ buf

theorem filter_beq_of_nodup {α : Type} [BEq α] [LawfulBEq α] (l : List α) (a : α)
    (hn : l.Nodup) (ha : a ∈ l) : (l.filter fun p => p == a) = [a] := by
  induction l with
  | nil => cases ha
  | cons x t ih =>
    rw [List.filter_cons]
    by_cases hx : x = a
    · subst hx
      have hnot : x ∉ t := (List.nodup_cons.mp hn).1
      have hft : (t.filter fun p => p == x) = [] :=
        List.filter_eq_nil_iff.mpr fun b hb hbeq => hnot (beq_iff_eq.mp hbeq ▸ hb)
      simp [hft]
    · have hat : a ∈ t := by
        rcases List.mem_cons.mp ha with h | h
        · exact absurd h.symm hx
        · exact h
      have hbx : (x == a) = false := beq_eq_false_iff_ne.mpr hx
      simp only [hbx, Bool.false_eq_true, if_false, cond_false]
      exact ih (List.nodup_cons.mp hn).2 hat

theorem paint_get (g : Glyph) (buf : List ℕ) (bufW : ℕ) (ox oy : ℕ)
    (hox : ox + g.rect.width ≤ bufW) (px py : ℕ) (hpx : px < bufW) :
    (paint buf bufW g ox oy).get? (py * bufW + px) =
      if ox ≤ px ∧ px < ox + g.rect.width ∧ oy ≤ py ∧ py < oy + g.rect.height then
        (if py * bufW + px < buf.length then
          some (g.image.getD ((px - ox) + (py - oy) * g.rect.width) 0)
        else none)
      else buf.get? (py * bufW + px) := by
  unfold paint
  rw [foldl_set_get (fun p : ℕ × ℕ => (p.2 + oy) * bufW + (p.1 + ox))
    (fun p : ℕ × ℕ => g.image.getD (p.1 + p.2 * g.rect.width) 0)
    (grid g.rect.width g.rect.height) buf (py * bufW + px)]
  by_cases hin : ox ≤ px ∧ px < ox + g.rect.width ∧ oy ≤ py ∧ py < oy + g.rect.height
  · have hmemt : (px - ox, py - oy) ∈ grid g.rect.width g.rect.height :=
      grid_mem_iff.mpr ⟨by omega, by omega⟩
    have hpred : ∀ p ∈ grid g.rect.width g.rect.height,
        ((p.2 + oy) * bufW + (p.1 + ox) == py * bufW + px) =
          (p == (px - ox, py - oy)) := by
      intro p hp
      obtain ⟨h1, h2⟩ := grid_mem hp
      by_cases he : (p.2 + oy) * bufW + (p.1 + ox) = py * bufW + px
      · obtain ⟨ha, hb⟩ := row_major_inj bufW _ _ _ _ (by omega) hpx he
        have hpt : p = (px - ox, py - oy) := by
          obtain ⟨p1, p2⟩ := p
          simp only [Prod.mk.injEq]
          constructor <;> omega
        subst hpt
        simp [he]
      · have hne : p ≠ (px - ox, py - oy) := by
          intro hc
          apply he
          subst hc
          have e1 : px - ox + ox = px := by omega
          have e2 : py - oy + oy = py := by omega
          simp only [e1, e2]
        simp [he, hne]
    rw [List.filter_congr hpred, filter_beq_of_nodup _ _ (grid_nodup _ _) hmemt]
    simp [hin]
  · have hpred : ∀ p ∈ grid g.rect.width g.rect.height,
        ¬ ((p.2 + oy) * bufW + (p.1 + ox) == py * bufW + px) = true := by
      intro p hp hc
      obtain ⟨h1, h2⟩ := grid_mem hp
      rw [beq_iff_eq] at hc
      obtain ⟨ha, hb⟩ := row_major_inj bufW _ _ _ _ (by omega) hpx hc
      exact hin ⟨by omega, by omega, by omega, by omega⟩
    rw [List.filter_eq_nil_iff.mpr hpred]
    simp [hin]

/-- Membership of the absolute page point `(X, Y)` in a rect. -/
def inAbs (r : Rect) (X Y : ℕ) : Prop :=
  r.x ≤ X ∧ X < r.x + r.width ∧ r.y ≤ Y ∧ Y < r.y + r.height

instance (r : Rect) (X Y : ℕ) : Decidable (inAbs r X Y) :=
  inferInstanceAs (Decidable (_ ∧ _ ∧ _ ∧ _))

theorem join_rect (a b : UnknownGlyph)
    (haw : a.rect.x + a.rect.width < 2 ^ 32) (hah : a.rect.y + a.rect.height < 2 ^ 32)
    (hbw : b.rect.x + b.rect.width < 2 ^ 32) (hbh : b.rect.y + b.rect.height < 2 ^ 32) :
    (a.join b).rect =
      ⟨min a.rect.x b.rect.x, min a.rect.y b.rect.y,
        max (a.rect.x + a.rect.width) (b.rect.x + b.rect.width) - min a.rect.x b.rect.x,
        max (a.rect.y + a.rect.height) (b.rect.y + b.rect.height) - min a.rect.y b.rect.y⟩ := by
  have e1 : u32sub (u32add a.rect.x a.rect.width) (min a.rect.x b.rect.x) =
      a.rect.x + a.rect.width - min a.rect.x b.rect.x := by
    rw [u32add_eq _ _ haw]
    exact u32sub_eq _ _ (by omega) (by omega)
  have e2 : u32sub (u32add b.rect.x b.rect.width) (min a.rect.x b.rect.x) =
      b.rect.x + b.rect.width - min a.rect.x b.rect.x := by
    rw [u32add_eq _ _ hbw]
    exact u32sub_eq _ _ (by omega) (by omega)
  have e3 : u32sub (u32add a.rect.y a.rect.height) (min a.rect.y b.rect.y) =
      a.rect.y + a.rect.height - min a.rect.y b.rect.y := by
    rw [u32add_eq _ _ hah]
    exact u32sub_eq _ _ (by omega) (by omega)
  have e4 : u32sub (u32add b.rect.y b.rect.height) (min a.rect.y b.rect.y) =
      b.rect.y + b.rect.height - min a.rect.y b.rect.y := by
    rw [u32add_eq _ _ hbh]
    exact u32sub_eq _ _ (by omega) (by omega)
  show Rect.mk _ _
      (max (u32sub (u32add a.rect.x a.rect.width) (min a.rect.x b.rect.x))
        (u32sub (u32add b.rect.x b.rect.width) (min a.rect.x b.rect.x)))
      (max (u32sub (u32add a.rect.y a.rect.height) (min a.rect.y b.rect.y))
        (u32sub (u32add b.rect.y b.rect.height) (min a.rect.y b.rect.y))) = _
  rw [e1, e2, e3, e4]
  congr 1 <;> omega

/-- The pixel value glyph `u` contributes at absolute page coordinates
`(X, Y)`: its bitmap indexed relative to its own rect. -/
def absPixel (u : UnknownGlyph) (X Y : ℕ) : ℕ :=
  u.image.getD ((X - u.rect.x) + (Y - u.rect.y) * u.rect.width) 0

theorem getD_get? {α : Type} (l : List α) (n : ℕ) (d : α) :
    l.getD n d = (l.get? n).getD d := by
  induction l generalizing n with
  | nil => cases n <;> rfl
  | cons x t ih =>
    cases n with
    | zero => rfl
    | succ m => exact ih m

theorem paint_get' (r : Rect) (img : List ℕ) (buf : List ℕ) (bufW ox oy : ℕ)
    (hox : ox + r.width ≤ bufW) (px py : ℕ) (hpx : px < bufW) :
    (paint buf bufW ⟨r, img⟩ ox oy).get? (py * bufW + px) =
      if ox ≤ px ∧ px < ox + r.width ∧ oy ≤ py ∧ py < oy + r.height then
        (if py * bufW + px < buf.length then
          some (img.getD ((px - ox) + (py - oy) * r.width) 0)
        else none)
      else buf.get? (py * bufW + px) :=
  paint_get ⟨r, img⟩ buf bufW ox oy hox px py hpx

theorem idx_lt (px py w h : ℕ) (hpx : px < w) (hpy : py < h) :
    py * w + px < w * h :=
  calc py * w + px < py * w + w := by omega
    _ = (py + 1) * w := by ring
    _ ≤ h * w := Nat.mul_le_mul_right w hpy
    _ = w * h := Nat.mul_comm h w

theorem join_eq (a b : UnknownGlyph)
    (haw : a.rect.x + a.rect.width < 2 ^ 32) (hah : a.rect.y + a.rect.height < 2 ^ 32)
    (hbw : b.rect.x + b.rect.width < 2 ^ 32) (hbh : b.rect.y + b.rect.height < 2 ^ 32) :
    a.join b =
      { rect := ⟨min a.rect.x b.rect.x, min a.rect.y b.rect.y,
          max (a.rect.x + a.rect.width) (b.rect.x + b.rect.width) - min a.rect.x b.rect.x,
          max (a.rect.y + a.rect.height) (b.rect.y + b.rect.height) - min a.rect.y b.rect.y⟩,
        image := paint
          (paint (List.replicate
              ((max (a.rect.x + a.rect.width) (b.rect.x + b.rect.width) -
                  min a.rect.x b.rect.x) *
                (max (a.rect.y + a.rect.height) (b.rect.y + b.rect.height) -
                  min a.rect.y b.rect.y)) 255)
            (max (a.rect.x + a.rect.width) (b.rect.x + b.rect.width) - min a.rect.x b.rect.x)
            a.toGlyph (a.rect.x - min a.rect.x b.rect.x) (a.rect.y - min a.rect.y b.rect.y))
          (max (a.rect.x + a.rect.width) (b.rect.x + b.rect.width) - min a.rect.x b.rect.x)
          b.toGlyph (b.rect.x - min a.rect.x b.rect.x) (b.rect.y - min a.rect.y b.rect.y),
        dist := none, guess := none } := by
  have e1 : u32sub (u32add a.rect.x a.rect.width) (min a.rect.x b.rect.x) =
      a.rect.x + a.rect.width - min a.rect.x b.rect.x := by
    rw [u32add_eq _ _ haw]
    exact u32sub_eq _ _ (by omega) (by omega)
  have e2 : u32sub (u32add b.rect.x b.rect.width) (min a.rect.x b.rect.x) =
      b.rect.x + b.rect.width - min a.rect.x b.rect.x := by
    rw [u32add_eq _ _ hbw]
    exact u32sub_eq _ _ (by omega) (by omega)
  have e3 : u32sub (u32add a.rect.y a.rect.height) (min a.rect.y b.rect.y) =
      a.rect.y + a.rect.height - min a.rect.y b.rect.y := by
    rw [u32add_eq _ _ hah]
    exact u32sub_eq _ _ (by omega) (by omega)
  have e4 : u32sub (u32add b.rect.y b.rect.height) (min a.rect.y b.rect.y) =
      b.rect.y + b.rect.height - min a.rect.y b.rect.y := by
    rw [u32add_eq _ _ hbh]
    exact u32sub_eq _ _ (by omega) (by omega)
  have eW : max (a.rect.x + a.rect.width - min a.rect.x b.rect.x)
      (b.rect.x + b.rect.width - min a.rect.x b.rect.x) =
      max (a.rect.x + a.rect.width) (b.rect.x + b.rect.width) - min a.rect.x b.rect.x := by
    omega
  have eH : max (a.rect.y + a.rect.height - min a.rect.y b.rect.y)
      (b.rect.y + b.rect.height - min a.rect.y b.rect.y) =
      max (a.rect.y + a.rect.height) (b.rect.y + b.rect.height) - min a.rect.y b.rect.y := by
    omega
  simp only [UnknownGlyph.join, e1, e2, e3, e4, eW, eH]

theorem join_pix (a b : UnknownGlyph)
    (haw : a.rect.x + a.rect.width < 2 ^ 32) (hah : a.rect.y + a.rect.height < 2 ^ 32)
    (hbw : b.rect.x + b.rect.width < 2 ^ 32) (hbh : b.rect.y + b.rect.height < 2 ^ 32)
    (X Y : ℕ)
    (hX1 : min a.rect.x b.rect.x ≤ X)
    (hX2 : X < max (a.rect.x + a.rect.width) (b.rect.x + b.rect.width))
    (hY1 : min a.rect.y b.rect.y ≤ Y)
    (hY2 : Y < max (a.rect.y + a.rect.height) (b.rect.y + b.rect.height)) :
    (a.join b).image.getD
        ((Y - min a.rect.y b.rect.y) *
            (max (a.rect.x + a.rect.width) (b.rect.x + b.rect.width) -
              min a.rect.x b.rect.x) +
          (X - min a.rect.x b.rect.x)) 0 =
      if inAbs b.rect X Y then absPixel b X Y
      else if inAbs a.rect X Y then absPixel a X Y
      else 255 := by
  rw [join_eq a b haw hah hbw hbh]
  simp only [UnknownGlyph.toGlyph]
  rw [getD_get?]
  rw [paint_get' b.rect b.image _ _ _ _ (by omega) _ _ (by omega)]
  by_cases hb : inAbs b.rect X Y
  · have hb0 := hb
    obtain ⟨hb1, hb2, hb3, hb4⟩ := hb0
    rw [if_pos (by omega :
      b.rect.x - min a.rect.x b.rect.x ≤ X - min a.rect.x b.rect.x ∧
      X - min a.rect.x b.rect.x <
        b.rect.x - min a.rect.x b.rect.x + b.rect.width ∧
      b.rect.y - min a.rect.y b.rect.y ≤ Y - min a.rect.y b.rect.y ∧
      Y - min a.rect.y b.rect.y <
        b.rect.y - min a.rect.y b.rect.y + b.rect.height)]
    rw [if_pos (by
      rw [paint_length, List.length_replicate]
      exact idx_lt _ _ _ _ (by omega) (by omega))]
    rw [Option.getD_some]
    have h1 : X - min a.rect.x b.rect.x - (b.rect.x - min a.rect.x b.rect.x) =
        X - b.rect.x := by omega
    have h2 : Y - min a.rect.y b.rect.y - (b.rect.y - min a.rect.y b.rect.y) =
        Y - b.rect.y := by omega
    rw [h1, h2, if_pos hb]
    rfl
  · have hcond : ¬ (b.rect.x - min a.rect.x b.rect.x ≤ X - min a.rect.x b.rect.x ∧
        X - min a.rect.x b.rect.x <
          b.rect.x - min a.rect.x b.rect.x + b.rect.width ∧
        b.rect.y - min a.rect.y b.rect.y ≤ Y - min a.rect.y b.rect.y ∧
        Y - min a.rect.y b.rect.y <
          b.rect.y - min a.rect.y b.rect.y + b.rect.height) := by
      intro h
      obtain ⟨g1, g2, g3, g4⟩ := h
      exact hb ⟨by omega, by omega, by omega, by omega⟩
    rw [if_neg hcond]
    rw [paint_get' a.rect a.image _ _ _ _ (by omega) _ _ (by omega)]
    by_cases ha : inAbs a.rect X Y
    · have ha0 := ha
      obtain ⟨ha1, ha2, ha3, ha4⟩ := ha0
      rw [if_pos (by omega :
        a.rect.x - min a.rect.x b.rect.x ≤ X - min a.rect.x b.rect.x ∧
        X - min a.rect.x b.rect.x <
          a.rect.x - min a.rect.x b.rect.x + a.rect.width ∧
        a.rect.y - min a.rect.y b.rect.y ≤ Y - min a.rect.y b.rect.y ∧
        Y - min a.rect.y b.rect.y <
          a.rect.y - min a.rect.y b.rect.y + a.rect.height)]
      rw [if_pos (by
        rw [List.length_replicate]
        exact idx_lt _ _ _ _ (by omega) (by omega))]
      rw [Option.getD_some]
      have h1 : X - min a.rect.x b.rect.x - (a.rect.x - min a.rect.x b.rect.x) =
          X - a.rect.x := by omega
      have h2 : Y - min a.rect.y b.rect.y - (a.rect.y - min a.rect.y b.rect.y) =
          Y - a.rect.y := by omega
      rw [h1, h2, if_neg hb, if_pos ha]
      rfl
    · have hcond2 : ¬ (a.rect.x - min a.rect.x b.rect.x ≤ X - min a.rect.x b.rect.x ∧
          X - min a.rect.x b.rect.x <
            a.rect.x - min a.rect.x b.rect.x + a.rect.width ∧
          a.rect.y - min a.rect.y b.rect.y ≤ Y - min a.rect.y b.rect.y ∧
          Y - min a.rect.y b.rect.y <
            a.rect.y - min a.rect.y b.rect.y + a.rect.height) := by
        intro h
        obtain ⟨g1, g2, g3, g4⟩ := h
        exact ha ⟨by omega, by omega, by omega, by omega⟩
      rw [if_neg hcond2]
      rw [get?_replicate _ _ _ (idx_lt _ _ _ _ (by omega) (by omega))]
      rw [Option.getD_some, if_neg hb, if_neg ha]

/-- The two fragments joined in the C7 witness: two 1×1 glyphs two
columns apart on the same row. -/
def c7a : UnknownGlyph :=
  ⟨⟨0, 0, 1, 1⟩, [0], none, none⟩

def c7b : UnknownGlyph :=
  ⟨⟨2, 0, 1, 1⟩, [7], none, none⟩

/-- Claim C7: for all UnknownGlyphs `a` and `b` whose corners fit in a
`u32` (so the `u32` arithmetic in `join` does not wrap), `join a b` has
exactly the smallest rect containing both inputs' absolute rects,
resets `dist` and `guess` to `none`, and at every absolute position of
that rect its bitmap holds `b`'s pixel where `b`'s rect covers the
position, else `a`'s pixel where `a`'s rect covers it, else white
(255) — so each input's pixels sit at their original absolute
positions, `b` (painted second) winning where the rects overlap; and
the pixel content agrees with that of `join b a` at every position not
covered by both rects. -/
theorem join_spec (a b : UnknownGlyph)
    (haw : a.rect.x + a.rect.width < 2 ^ 32) (hah : a.rect.y + a.rect.height < 2 ^ 32)
    (hbw : b.rect.x + b.rect.width < 2 ^ 32) (hbh : b.rect.y + b.rect.height < 2 ^ 32) :
    (a.join b).rect =
        ⟨min a.rect.x b.rect.x, min a.rect.y b.rect.y,
          max (a.rect.x + a.rect.width) (b.rect.x + b.rect.width) - min a.rect.x b.rect.x,
          max (a.rect.y + a.rect.height) (b.rect.y + b.rect.height) -
            min a.rect.y b.rect.y⟩ ∧
      (a.join b).dist = none ∧ (a.join b).guess = none ∧
      ∀ X Y, min a.rect.x b.rect.x ≤ X →
        X < max (a.rect.x + a.rect.width) (b.rect.x + b.rect.width) →
        min a.rect.y b.rect.y ≤ Y →
        Y < max (a.rect.y + a.rect.height) (b.rect.y + b.rect.height) →
        ((a.join b).image.getD
              ((Y - min a.rect.y b.rect.y) *
                  (max (a.rect.x + a.rect.width) (b.rect.x + b.rect.width) -
                    min a.rect.x b.rect.x) +
                (X - min a.rect.x b.rect.x)) 0 =
            if inAbs b.rect X Y then absPixel b X Y
            else if inAbs a.rect X Y then absPixel a X Y
            else 255) ∧
          (¬(inAbs a.rect X Y ∧ inAbs b.rect X Y) →
            (a.join b).image.getD
                ((Y - min a.rect.y b.rect.y) *
                    (max (a.rect.x + a.rect.width) (b.rect.x + b.rect.width) -
                      min a.rect.x b.rect.x) +
                  (X - min a.rect.x b.rect.x)) 0 =
              (b.join a).image.getD
                ((Y - min a.rect.y b.rect.y) *
                    (max (a.rect.x + a.rect.width) (b.rect.x + b.rect.width) -
                      min a.rect.x b.rect.x) +
                  (X - min a.rect.x b.rect.x)) 0) := by
  refine ⟨join_rect a b haw hah hbw hbh, rfl, rfl, ?_⟩
  intro X Y hX1 hX2 hY1 hY2
  refine ⟨join_pix a b haw hah hbw hbh X Y hX1 hX2 hY1 hY2, ?_⟩
  intro hno
  have hba := join_pix b a hbw hbh haw hah X Y (by omega) (by omega) (by omega) (by omega)
  rw [Nat.min_comm b.rect.x a.rect.x, Nat.min_comm b.rect.y a.rect.y,
    Nat.max_comm (b.rect.x + b.rect.width) (a.rect.x + a.rect.width)] at hba
  rw [join_pix a b haw hah hbw hbh X Y hX1 hX2 hY1 hY2, hba]
  by_cases hia : inAbs a.rect X Y
  · by_cases hib : inAbs b.rect X Y
    · exact absurd ⟨hia, hib⟩ hno
    · simp [hia, hib]
  · by_cases hib : inAbs b.rect X Y
    · simp [hia, hib]
    · simp [hia, hib]

/-- Claim C7 (witness): the theorem applied to the two concrete 1×1
fragments, whose coordinates trivially fit in a `u32`. -/
theorem join_spec_witness :
    (c7a.join c7b).rect =
        ⟨min c7a.rect.x c7b.rect.x, min c7a.rect.y c7b.rect.y,
          max (c7a.rect.x + c7a.rect.width) (c7b.rect.x + c7b.rect.width) -
            min c7a.rect.x c7b.rect.x,
          max (c7a.rect.y + c7a.rect.height) (c7b.rect.y + c7b.rect.height) -
            min c7a.rect.y c7b.rect.y⟩ ∧
      (c7a.join c7b).dist = none ∧ (c7a.join c7b).guess = none ∧
      ∀ X Y, min c7a.rect.x c7b.rect.x ≤ X →
        X < max (c7a.rect.x + c7a.rect.width) (c7b.rect.x + c7b.rect.width) →
        min c7a.rect.y c7b.rect.y ≤ Y →
        Y < max (c7a.rect.y + c7a.rect.height) (c7b.rect.y + c7b.rect.height) →
        ((c7a.join c7b).image.getD
              ((Y - min c7a.rect.y c7b.rect.y) *
                  (max (c7a.rect.x + c7a.rect.width) (c7b.rect.x + c7b.rect.width) -
                    min c7a.rect.x c7b.rect.x) +
                (X - min c7a.rect.x c7b.rect.x)) 0 =
            if inAbs c7b.rect X Y then absPixel c7b X Y
            else if inAbs c7a.rect X Y then absPixel c7a X Y
            else 255) ∧
          (¬(inAbs c7a.rect X Y ∧ inAbs c7b.rect X Y) →
            (c7a.join c7b).image.getD
                ((Y - min c7a.rect.y c7b.rect.y) *
                    (max (c7a.rect.x + c7a.rect.width) (c7b.rect.x + c7b.rect.width) -
                      min c7a.rect.x c7b.rect.x) +
                  (X - min c7a.rect.x c7b.rect.x)) 0 =
              (c7b.join c7a).image.getD
                ((Y - min c7a.rect.y c7b.rect.y) *
                    (max (c7a.rect.x + c7a.rect.width) (c7b.rect.x + c7b.rect.width) -
                      min c7a.rect.x c7b.rect.x) +
                  (X - min c7a.rect.x c7b.rect.x)) 0) :=
  join_spec c7a c7b (by decide) (by decide) (by decide) (by decide)

set_option maxRecDepth 10000 in
/-- Claim C6 (witness): the theorem applied to the concrete merge of
the two fragments against the matching 2×1 reference glyph. -/
theorem wordGuess_merge_spec_witness :
    ((c6Glyphs.getD 1 default).rect.x ≤
      (c6Glyphs.getD 0 default).rect.x + (c6Glyphs.getD 0 default).rect.width
        + WORD_SPACING / 4 ∨
      (DIST_THRESHOLD : WithTop ℚ) < unwrapDist (c6Glyphs.getD 1 default).dist) ∧
    ((1 = 1 ∨ 1 = 2) ∧ 1 ≤ 1 ∧ unwrapDist c6Joined.dist < consumedDist c6Glyphs 1 1) ∧
    (replaceMerged c6Glyphs 1 1 c6Joined).length < c6Glyphs.length ∧
    (mergeLoop c6Fb 1 c6Glyphs 2).length ≤ c6Glyphs.length :=
  ⟨(wordGuess_merge_spec c6Fb 1).1 c6Glyphs 1 (by decide) (by decide) (by decide) (by decide),
    (wordGuess_merge_spec c6Fb 1).2.1 c6Glyphs 1 1 c6Joined c6_mergeAttempt,
    (wordGuess_merge_spec c6Fb 1).2.2.1 c6Glyphs 1 1 c6Joined c6_mergeAttempt (by decide),
    (wordGuess_merge_spec c6Fb 1).2.2.2 c6Glyphs 2 (by decide)⟩

/-- One row of the declarative clustering of ink rows, written to the
amended claim: an ink row (mean gray value ≠ 255) extends the last
cluster when separated from it by at most `spacing` blank rows, and
opens a new cluster otherwise; a white row changes nothing. -/
def clusterStep (spacing : ℕ) (acc : List (ℕ × ℕ)) (i : ℕ) (ink : Bool) : List (ℕ × ℕ) :=
  if ink then
    match acc.getLast? with
    | some (a, b) => if i - b - 1 ≤ spacing then acc.dropLast ++ [(a, i)] else acc ++ [(i, i)]
    | none => [(i, i)]
  else acc

/-- The clusters of ink rows among the first `n` rows of `g`. -/
def clustersUpTo (g : GrayImage) (spacing n : ℕ) : List (ℕ × ℕ) :=
  (List.range n).foldl
    (fun acc i => clusterStep spacing acc i (decide (rowAverage g i ≠ 255))) []

/-- The declarative description of `find_parts`, written to the amended
claim: one inclusive `(first ink row, last ink row)` pair per maximal
cluster of ink rows — ink runs separated by at most `spacing` blank
rows merge, runs separated by more than `spacing` stay separate — in
scan order, except that a cluster whose last ink row is followed by at
most `spacing` trailing blank rows is still open when the scan ends and
is emitted as `(first ink row, image height)` instead. -/
def specParts (g : GrayImage) (spacing : ℕ) : List (ℕ × ℕ) :=
  match (clustersUpTo g spacing g.height).getLast? with
  | none => []
  | some (a, b) =>
    if g.height - 1 - b ≤ spacing then
      (clustersUpTo g spacing g.height).dropLast ++ [(a, g.height)]
    else clustersUpTo g spacing g.height

/-- The loop state of `find_parts` after its first `n` iterations. -/
def stateUpTo (g : GrayImage) (spacing n : ℕ) : FPState :=
  (List.range n).foldl (findPartsStep g spacing) ⟨0, 0, false, []⟩

/-- The simulation invariant tying the `find_parts` loop state after
row `i` to the clusters of the first `i` rows: either nothing was seen,
or the last cluster `(a, b)` is still open (the part started at `a`,
`fin` is `b + 1` once a white row followed and the sentinel 0 before),
or it was closed and emitted as `(a, b)`. -/
def FPInv (spacing i : ℕ) (s : FPState) (c : List (ℕ × ℕ)) : Prop :=
  (c = [] ∧ s = ⟨0, 0, false, []⟩) ∨
  (∃ cs a b, c = cs ++ [(a, b)] ∧ b < i ∧
    ((i ≤ b + spacing + 1 ∧ s = ⟨a, if b + 1 = i then 0 else b + 1, true, cs⟩) ∨
     (b + spacing + 2 ≤ i ∧ s = ⟨a, b + 1, false, cs ++ [(a, b)]⟩)))

theorem findPartsStep_white_out (g : GrayImage) (spacing i st f : ℕ) (ps : List (ℕ × ℕ))
    (hav : rowAverage g i = 255) :
    findPartsStep g spacing ⟨st, f, false, ps⟩ i = ⟨st, f, false, ps⟩ := by
  simp [findPartsStep, hav]

theorem findPartsStep_ink (g : GrayImage) (spacing i st f : ℕ) (inP : Bool)
    (ps : List (ℕ × ℕ)) (hav : rowAverage g i ≠ 255) :
    findPartsStep g spacing ⟨st, f, inP, ps⟩ i =
      ⟨if inP then st else i, 0, true, ps⟩ := by
  simp [findPartsStep, hav]

theorem findPartsStep_open_white (g : GrayImage) (spacing i st f : ℕ)
    (ps : List (ℕ × ℕ)) (hav : rowAverage g i = 255) :
    findPartsStep g spacing ⟨st, f, true, ps⟩ i =
      if spacing ≤ i - (if f = 0 then i else f) then
        ⟨st, if f = 0 then i else f, false, ps ++ [(st, (if f = 0 then i else f) - 1)]⟩
      else ⟨st, if f = 0 then i else f, true, ps⟩ := by
  simp [findPartsStep, hav]

theorem clusterStep_ink_concat (spacing i a b : ℕ) (cs : List (ℕ × ℕ)) :
    clusterStep spacing (cs ++ [(a, b)]) i true =
      if i - b - 1 ≤ spacing then cs ++ [(a, i)]
      else (cs ++ [(a, b)]) ++ [(i, i)] := by
  simp [clusterStep, List.getLast?_concat, List.dropLast_concat]

theorem fpinv_step (g : GrayImage) (spacing i : ℕ) (s : FPState) (c : List (ℕ × ℕ))
    (h : FPInv spacing i s c) :
    FPInv spacing (i + 1) (findPartsStep g spacing s i)
      (clusterStep spacing c i (decide (rowAverage g i ≠ 255))) := by
  by_cases hav : rowAverage g i = 255
  · have hink : (decide (rowAverage g i ≠ 255)) = false := by simp [hav]
    rw [hink]
    rcases h with ⟨hc, hs⟩ | ⟨cs, a, b, hc, hbi, ⟨hle, hs⟩ | ⟨hge, hs⟩⟩
    · subst hc
      subst hs
      rw [findPartsStep_white_out g spacing i _ _ _ hav]
      exact Or.inl ⟨rfl, rfl⟩
    · subst hc
      subst hs
      rw [findPartsStep_open_white g spacing i _ _ _ hav]
      have hfin : (if (if b + 1 = i then 0 else b + 1) = 0 then i
          else (if b + 1 = i then 0 else b + 1)) = b + 1 := by
        by_cases hbe : b + 1 = i
        · simp [hbe]
        · simp [hbe]
      rw [hfin, Nat.add_sub_cancel]
      by_cases hcl : spacing ≤ i - (b + 1)
      · rw [if_pos hcl]
        exact Or.inr ⟨cs, a, b, rfl, by omega, Or.inr ⟨by omega, rfl⟩⟩
      · rw [if_neg hcl]
        refine Or.inr ⟨cs, a, b, rfl, by omega, Or.inl ⟨by omega, ?_⟩⟩
        rw [if_neg (by omega : ¬ b + 1 = i + 1)]
    · subst hc
      subst hs
      rw [findPartsStep_white_out g spacing i _ _ _ hav]
      exact Or.inr ⟨cs, a, b, rfl, by omega, Or.inr ⟨by omega, rfl⟩⟩
  · have hink : (decide (rowAverage g i ≠ 255)) = true := by simp [hav]
    rw [hink]
    rcases h with ⟨hc, hs⟩ | ⟨cs, a, b, hc, hbi, ⟨hle, hs⟩ | ⟨hge, hs⟩⟩
    · subst hc
      subst hs
      rw [findPartsStep_ink g spacing i _ _ _ _ hav]
      refine Or.inr ⟨[], i, i, rfl, by omega, Or.inl ⟨by omega, ?_⟩⟩
      simp
    · subst hc
      subst hs
      rw [findPartsStep_ink g spacing i _ _ _ _ hav,
        clusterStep_ink_concat spacing i a b cs, if_pos (by omega : i - b - 1 ≤ spacing)]
      refine Or.inr ⟨cs, a, i, rfl, by omega, Or.inl ⟨by omega, ?_⟩⟩
      simp
    · subst hc
      subst hs
      rw [findPartsStep_ink g spacing i _ _ _ _ hav,
        clusterStep_ink_concat spacing i a b cs,
        if_neg (by omega : ¬ i - b - 1 ≤ spacing)]
      refine Or.inr ⟨cs ++ [(a, b)], i, i, rfl, by omega, Or.inl ⟨by omega, ?_⟩⟩
      simp

theorem fpinv_all (g : GrayImage) (spacing : ℕ) :
    ∀ n, FPInv spacing n (stateUpTo g spacing n) (clustersUpTo g spacing n) := by
  intro n
  induction n with
  | zero => exact Or.inl ⟨rfl, rfl⟩
  | succ m ih =>
    have e1 : stateUpTo g spacing (m + 1) =
        findPartsStep g spacing (stateUpTo g spacing m) m := by
      unfold stateUpTo
      rw [List.range_succ, List.foldl_append, List.foldl_cons, List.foldl_nil]
    have e2 : clustersUpTo g spacing (m + 1) =
        clusterStep spacing (clustersUpTo g spacing m) m
          (decide (rowAverage g m ≠ 255)) := by
      unfold clustersUpTo
      rw [List.range_succ, List.foldl_append, List.foldl_cons, List.foldl_nil]
    rw [e1, e2]
    exact fpinv_step g spacing m _ _ ih

/-- The image of the C3 counterexample: a single-column image whose two
ink rows are separated by exactly `spacing = 2` blank rows. -/
def c3Img : GrayImage :=
  ⟨1, 4, [0, 255, 255, 0]⟩

/-- Claim C3 (amended): `find_parts` equals the declarative clustering
`specParts` of the ink rows (rows of mean gray value ≠ 255): one
cluster per maximal group of ink runs, where runs separated by at most
`spacing` blank rows merge and runs separated by more than `spacing`
blank rows stay separate; each closed cluster is emitted, in scan
order, as the inclusive in-range pair (first ink row, last ink row);
an all-white image yields the empty sequence; but a cluster followed by
at most `spacing` trailing blank rows is still open when the scan ends
and is emitted as (first ink row, image height), whose second component
is not an in-range row index. -/
theorem findParts_spec (g : GrayImage) (spacing : ℕ) :
    findParts g spacing = specParts g spacing := by
  have e1 : findParts g spacing =
      if (stateUpTo g spacing g.height).inPart then
        (stateUpTo g spacing g.height).parts ++
          [((stateUpTo g spacing g.height).start, g.height)]
      else (stateUpTo g spacing g.height).parts := rfl
  rcases fpinv_all g spacing g.height with ⟨hc, hs⟩ |
    ⟨cs, a, b, hc, hbi, ⟨hle, hs⟩ | ⟨hge, hs⟩⟩
  · rw [e1, hs]
    unfold specParts
    rw [hc]
    rfl
  · rw [e1, hs]
    unfold specParts
    rw [hc, List.getLast?_concat]
    simp only [FPState.inPart, FPState.parts, FPState.start, if_true]
    rw [if_pos (by omega : g.height - 1 - b ≤ spacing), List.dropLast_concat]
  · rw [e1, hs]
    unfold specParts
    rw [hc, List.getLast?_concat]
    simp only [FPState.inPart, FPState.parts, FPState.start]
    rw [if_neg (by omega : ¬ g.height - 1 - b ≤ spacing)]
    simp

/-- Claim C3 (counterexample): with `spacing = 2`, two ink rows
separated by exactly 2 blank rows are merged into a single part — the
original claim demands two separate regions `(0,0)` and `(3,3)` — and
the part, still open at the end of the image, is emitted as `(0, 4)`
whose end is the image height, not an in-range row index. -/
theorem findParts_gap_counterexample :
    findParts c3Img 2 = [(0, 4)] ∧
    findParts c3Img 2 ≠ [(0, 0), (3, 3)] ∧
    c3Img.height ≤ 4 := by
  decide

end Pdf2Latex
